import Mathlib

/-!
Verification development for the rsatoolbox RDM transform engine
(src/rsatoolbox/rdm/transform.py).

The dissimilarity entries of an RDMs batch are numpy float64 values; we
idealize them as exact rationals extended with the IEEE special values
NaN, +inf and -inf (type F below).  Arithmetic and comparisons on F follow
the IEEE conventions numpy uses (comparisons with NaN are false, 0/0 is
NaN, x/0 is a signed infinity, NaN propagates through min/max reductions).
-/

namespace RSA

/-- An idealized numpy float64: NaN, plus/minus infinity, or a finite
(exact rational) value. -/
inductive F where
  | nan : F
  | pinf : F
  | ninf : F
  | fin : ℚ → F
deriving DecidableEq

/-- IEEE strict less-than (any comparison with NaN is false). -/
def F.lt : F → F → Bool
  | .nan, _ => false
  | _, .nan => false
  | .ninf, .ninf => false
  | .ninf, _ => true
  | _, .ninf => false
  | .pinf, _ => false
  | _, .pinf => true
  | .fin a, .fin b => decide (a < b)

/-- IEEE less-or-equal (any comparison with NaN is false). -/
def F.le : F → F → Bool
  | .nan, _ => false
  | _, .nan => false
  | .ninf, _ => true
  | _, .ninf => false
  | _, .pinf => true
  | .pinf, _ => false
  | .fin a, .fin b => decide (a ≤ b)

/-- IEEE equality test (NaN is not equal to anything, including itself). -/
def F.eqv : F → F → Bool
  | .nan, _ => false
  | _, .nan => false
  | .pinf, .pinf => true
  | .ninf, .ninf => true
  | .fin a, .fin b => decide (a = b)
  | _, _ => false

/-- IEEE addition. -/
def F.add : F → F → F
  | .nan, _ => .nan
  | _, .nan => .nan
  | .pinf, .ninf => .nan
  | .ninf, .pinf => .nan
  | .pinf, _ => .pinf
  | _, .pinf => .pinf
  | .ninf, _ => .ninf
  | _, .ninf => .ninf
  | .fin a, .fin b => .fin (a + b)

/-- IEEE subtraction. -/
def F.sub : F → F → F
  | .nan, _ => .nan
  | _, .nan => .nan
  | .pinf, .pinf => .nan
  | .ninf, .ninf => .nan
  | .pinf, _ => .pinf
  | _, .pinf => .ninf
  | .ninf, _ => .ninf
  | _, .ninf => .pinf
  | .fin a, .fin b => .fin (a - b)

/-- IEEE multiplication (0 times infinity is NaN). -/
def F.mul : F → F → F
  | .nan, _ => .nan
  | _, .nan => .nan
  | .pinf, .pinf => .pinf
  | .pinf, .ninf => .ninf
  | .ninf, .pinf => .ninf
  | .ninf, .ninf => .pinf
  | .pinf, .fin b => if b = 0 then .nan else if 0 < b then .pinf else .ninf
  | .fin a, .pinf => if a = 0 then .nan else if 0 < a then .pinf else .ninf
  | .ninf, .fin b => if b = 0 then .nan else if 0 < b then .ninf else .pinf
  | .fin a, .ninf => if a = 0 then .nan else if 0 < a then .ninf else .pinf
  | .fin a, .fin b => .fin (a * b)

/-- IEEE division (0/0 is NaN, x/0 is a signed infinity, zeros are +0). -/
def F.div : F → F → F
  | .nan, _ => .nan
  | _, .nan => .nan
  | .pinf, .pinf => .nan
  | .pinf, .ninf => .nan
  | .ninf, .pinf => .nan
  | .ninf, .ninf => .nan
  | .pinf, .fin b => if 0 ≤ b then .pinf else .ninf
  | .ninf, .fin b => if 0 ≤ b then .ninf else .pinf
  | .fin _, .pinf => .fin 0
  | .fin _, .ninf => .fin 0
  | .fin a, .fin b =>
      if b = 0 then (if a = 0 then .nan else if 0 < a then .pinf else .ninf)
      else .fin (a / b)

/-- Is this value NaN? -/
def F.isNan : F → Bool
  | .nan => true
  | _ => false

/-- Is this value finite? -/
def F.isFin : F → Bool
  | .fin _ => true
  | _ => false

/-- numpy's elementwise minimum: NaN propagates, otherwise the smaller value. -/
def F.min2 (a b : F) : F :=
  if a.isNan || b.isNan then .nan else if F.lt b a then b else a

/-- numpy's elementwise maximum: NaN propagates, otherwise the larger value. -/
def F.max2 (a b : F) : F :=
  if a.isNan || b.isNan then .nan else if F.lt a b then b else a

/-- numpy's ndarray.max() reduction over a flat list of values (the reduction
of an empty array is an error in numpy; here it yields NaN and all theorems
about it assume a nonempty batch). -/
def batchMax : List F → F
  | [] => .nan
  | x :: xs => xs.foldl F.max2 x

/-- numpy's ndarray.min() reduction. -/
def batchMin : List F → F
  | [] => .nan
  | x :: xs => xs.foldl F.min2 x

/-- Modelled from the spec: the RDMs container
(rsatoolbox.rdm.rdms.RDMs is not under src/; per the spec it wraps the
(n_rdm x n_pairs) dissimilarity block, a free-text measure label and three
descriptor mappings, and get_vectors returns a working copy of the block,
which in this pure value-semantics embedding is the block itself). -/
structure RDMs where
  vectors : List (List F)
  dissimilarity_measure : String
  descriptors : List (String × String)
  rdm_descriptors : List (String × String)
  pattern_descriptors : List (String × String)
deriving DecidableEq

/-- Modelled from the spec: RDMs.get_vectors returns the batch of condensed
dissimilarity vectors (a working copy; copying is invisible under value
semantics). -/
def RDMs.get_vectors (rdms : RDMs) : List (List F) := rdms.vectors

/-- Modelled from the spec: copy.deepcopy of a descriptor mapping; under
value semantics a deep copy is the value itself. -/
def deepcopy (d : List (String × String)) : List (String × String) := d

/-- A Python exception raised by a transform (or a library it calls). -/
inductive PyError where
  | valueError : String → PyError
deriving DecidableEq

/-- Result of a Python call: a value, or a raised exception. -/
inductive PyResult (α : Type) where
  | ok : α → PyResult α
  | error : PyError → PyResult α
deriving DecidableEq

/-- Run a fallible function over a list, stopping at the first exception
(the Python loop raises out of the whole call). -/
def mapOk {α β : Type} (f : α → PyResult β) : List α → PyResult (List β)
  | [] => .ok []
  | a :: as =>
      match f a with
      | .error e => .error e
      | .ok b =>
          match mapOk f as with
          | .error e => .error e
          | .ok bs => .ok (b :: bs)

/-- All entries of the batch joined into one flat list (numpy reductions
with no axis argument reduce over the whole block). -/
def flatten (vs : List (List F)) : List F := vs.flatten

/-- Every entry of the batch is a finite value. -/
def allFin (vs : List (List F)) : Bool := vs.all (fun r => r.all F.isFin)

/-- Does one character list start with another?  (Helper for Python's
substring containment test.) -/
def startsWithL : List Char → List Char → Bool
  | [], _ => true
  | _ :: _, [] => false
  | a :: as, b :: bs => decide (a = b) && startsWithL as bs

/-- Python's "pat in s" substring containment on character lists. -/
def hasSubstrL (pat : List Char) : List Char → Bool
  | [] => startsWithL pat []
  | c :: cs => startsWithL pat (c :: cs) || hasSubstrL pat cs

/-- Python's "pat in s" substring containment on strings. -/
def hasSubstr (pat s : String) : Bool := hasSubstrL pat.data s.data

/-- Python's str.strip(): drop leading and trailing whitespace. -/
def pstrip (s : String) : String :=
  ⟨((s.data.dropWhile Char.isWhitespace).reverse.dropWhile Char.isWhitespace).reverse⟩

/-- The five rank methods scipy.stats.rankdata accepts. -/
def rankMethods : List String := ["average", "min", "max", "dense", "ordinal"]

/-- Ordinal ranks, modelled from scipy.stats.rankdata(method="ordinal"):
all values get distinct ranks, ties broken by order of appearance; the rank
of the entry at index i is one plus the number of entries that are strictly
smaller, or equal with a smaller index. -/
def keyLt (q p : ℕ × F) : Bool :=
  F.lt q.2 p.2 || (decide (q.2 = p.2) && decide (q.1 < p.1))

/-- Ranks of one condensed row under the ordinal method. -/
def ordinalRanks (v : List F) : List F :=
  v.enum.map (fun p => F.fin ((v.enum.countP (fun q => keyLt q p) : ℚ) + 1))

/-- Ranks of one condensed row, modelled from scipy.stats.rankdata for each
tie-handling method (counting formulation of the standard rank statistics,
agreeing with scipy on real-valued data). -/
def rankdataRow (method : String) (v : List F) : List F :=
  if method = "ordinal" then ordinalRanks v
  else if method = "min" then
    v.map (fun x => F.fin ((v.countP (fun y => F.lt y x) : ℚ) + 1))
  else if method = "max" then
    v.map (fun x => F.fin ((v.countP (fun y => F.le y x) : ℚ)))
  else if method = "dense" then
    v.map (fun x => F.fin ((v.dedup.countP (fun y => F.lt y x) : ℚ) + 1))
  else
    v.map (fun x =>
      F.fin (((v.countP (fun y => F.lt y x) : ℚ) + 1 + (v.countP (fun y => F.le y x) : ℚ)) / 2))

/-- scipy.stats.rankdata: validates the method name before ranking,
raising ValueError for an unknown method. -/
def rankdata (v : List F) (method : String) : PyResult (List F) :=
  if method ∈ rankMethods then .ok (rankdataRow method v)
  else .error (.valueError "unknown method")

/-- rank_transform (transform.py lines 14-43): rank each row independently,
then append " (ranks)" to the measure label unless already present. -/
def rank_transform (rdms : RDMs) (method : String) : PyResult RDMs :=
  match mapOk (fun r => rankdata r method) rdms.get_vectors with
  | .error e => .error e
  | .ok dissimilarities =>
      let measure := rdms.dissimilarity_measure
      let measure :=
        if hasSubstr "(ranks)" measure then measure
        else pstrip (measure ++ " (ranks)")
      .ok { vectors := dissimilarities,
            dissimilarity_measure := measure,
            descriptors := deepcopy rdms.descriptors,
            rdm_descriptors := deepcopy rdms.rdm_descriptors,
            pattern_descriptors := deepcopy rdms.pattern_descriptors }

/-- The clamp "dissimilarities[dissimilarities < 0] = 0" applied to one
entry (IEEE: NaN < 0 is false, so NaN entries are left alone). -/
def clampNeg (x : F) : F := if F.lt x (F.fin 0) then F.fin 0 else x

/-- np.sqrt on one value.  The real square root of a rational is not
rational, so the finite branch is parametrized by the square-root map sq
(np.sqrt idealized); theorems only use that sq sends nonnegatives to
nonnegatives, which holds for the correctly-rounded IEEE sqrt. -/
def fsqrt (sq : ℚ → ℚ) : F → F
  | .nan => .nan
  | .pinf => .pinf
  | .ninf => .nan
  | .fin q => if q < 0 then .nan else .fin (sq q)

/-- sqrt_transform (transform.py lines 46-72): clamp negatives to 0, take
the elementwise square root, and rename the measure. -/
def sqrt_transform (sq : ℚ → ℚ) (rdms : RDMs) : RDMs :=
  let dissimilarities := (rdms.get_vectors).map (fun r => r.map (fun x => fsqrt sq (clampNeg x)))
  let dissimilarity_measure :=
    if rdms.dissimilarity_measure = "squared euclidean" then "euclidean"
    else if rdms.dissimilarity_measure = "squared mahalanobis" then "mahalanobis"
    else "sqrt of" ++ rdms.dissimilarity_measure
  { vectors := dissimilarities,
    dissimilarity_measure := dissimilarity_measure,
    descriptors := deepcopy rdms.descriptors,
    rdm_descriptors := deepcopy rdms.rdm_descriptors,
    pattern_descriptors := deepcopy rdms.pattern_descriptors }

/-- positive_transform (transform.py lines 75-92): clamp negatives to 0,
measure label unchanged. -/
def positive_transform (rdms : RDMs) : RDMs :=
  { vectors := (rdms.get_vectors).map (fun r => r.map clampNeg),
    dissimilarity_measure := rdms.dissimilarity_measure,
    descriptors := deepcopy rdms.descriptors,
    rdm_descriptors := deepcopy rdms.rdm_descriptors,
    pattern_descriptors := deepcopy rdms.pattern_descriptors }

/-- transform (transform.py lines 95-114): apply an arbitrary
batch-to-batch function. -/
def transform (rdms : RDMs) (fn : List (List F) → List (List F)) : RDMs :=
  { vectors := fn rdms.get_vectors,
    dissimilarity_measure := "transformed " ++ rdms.dissimilarity_measure,
    descriptors := deepcopy rdms.descriptors,
    rdm_descriptors := deepcopy rdms.rdm_descriptors,
    pattern_descriptors := deepcopy rdms.pattern_descriptors }

/-- minmax_transform (transform.py lines 117-137): rescale every entry by
the global (whole-batch) min and max. -/
def minmax_transform (rdms : RDMs) : RDMs :=
  let dissimilarities := rdms.get_vectors
  let dmax := batchMax (flatten dissimilarities)
  let dmin := batchMin (flatten dissimilarities)
  { vectors := dissimilarities.map (fun r => r.map (fun x => F.div (F.sub x dmin) (F.sub dmax dmin))),
    dissimilarity_measure := "minmax transformed " ++ rdms.dissimilarity_measure,
    descriptors := deepcopy rdms.descriptors,
    rdm_descriptors := deepcopy rdms.rdm_descriptors,
    pattern_descriptors := deepcopy rdms.pattern_descriptors }

/-- Total order used for sorting values (numpy sorts NaN last). -/
def F.sortLe : F → F → Bool
  | .nan, .nan => true
  | .nan, _ => false
  | _, .nan => true
  | .ninf, _ => true
  | _, .ninf => false
  | _, .pinf => true
  | .pinf, _ => false
  | .fin a, .fin b => decide (a ≤ b)

/-- Insert a value into a sorted list. -/
def insertSorted (x : F) : List F → List F
  | [] => [x]
  | y :: ys => if F.sortLe x y then x :: y :: ys else y :: insertSorted x ys

/-- Sort a list of values ascending (NaN last), as np.sort does. -/
def fsort (l : List F) : List F := l.foldr insertSorted []

/-- np.quantile with the default linear interpolation, modelled from the
numpy documentation: with the data sorted ascending, the q-quantile sits at
position q*(n-1) and is linearly interpolated between the two neighbouring
order statistics; if the data contain NaN the result is NaN. -/
def quantile (q : ℚ) (xs : List F) : F :=
  if xs.isEmpty then .nan
  else if xs.any F.isNan then .nan
  else
    let s := fsort xs
    let pos : ℚ := q * ((s.length : ℚ) - 1)
    let i : ℕ := pos.floor.toNat
    let γ : ℚ := pos - (i : ℚ)
    let a := s.getD i F.nan
    let b := s.getD (i + 1) (s.getD i F.nan)
    F.add a (F.mul (F.fin γ) (F.sub b a))

/-- The rescale applied to the middle quantile band. -/
def geotopRescale (gmin gmax x : F) : F := F.div (F.sub x gmin) (F.sub gmax gmin)

/-- geotopological_transform (transform.py lines 140-169): compute the l-
and u-quantiles of the whole batch, then three sequential in-place masked
assignments (clamp-low, rescale, clamp-high), each mask evaluated on the
array as already modified by the previous assignments.  np.quantile raises
ValueError when a quantile argument is outside [0, 1]. -/
def geotopological_transform (rdms : RDMs) (l u : ℚ) : PyResult RDMs :=
  if l < 0 ∨ 1 < l ∨ u < 0 ∨ 1 < u then
    .error (.valueError "Quantiles must be in the range [0, 1]")
  else
    let dissimilarities := rdms.get_vectors
    let gtMin := quantile l (flatten dissimilarities)
    let gtMax := quantile u (flatten dissimilarities)
    let vs1 := dissimilarities.map (List.map (fun x => if F.lt x gtMin then F.fin 0 else x))
    let vs2 := vs1.map (List.map (fun x =>
      if F.le gtMin x && F.le x gtMax then geotopRescale gtMin gtMax x else x))
    let vs3 := vs2.map (List.map (fun x => if F.lt gtMax x then F.fin 1 else x))
    .ok { vectors := vs3,
          dissimilarity_measure := "geo-topological transformed " ++ rdms.dissimilarity_measure,
          descriptors := deepcopy rdms.descriptors,
          rdm_descriptors := deepcopy rdms.rdm_descriptors,
          pattern_descriptors := deepcopy rdms.pattern_descriptors }

/-- The matrix dimension recovered from a condensed vector length, as
scipy.spatial.distance.squareform computes it (d with d*(d-1)/2 = m). -/
def sqDim (m : ℕ) : ℕ := (1 + Nat.sqrt (8 * m + 1)) / 2

/-- The (row, column) pairs of the strict upper triangle of an n x n
matrix, in the row-major order scipy's condensed form uses:
(0,1), (0,2), ..., (0,n-1), (1,2), ..., (n-2,n-1). -/
def condPairs (n : ℕ) : List (ℕ × ℕ) :=
  ((List.range n).map (fun i =>
    ((List.range n).filter (fun j => decide (i < j))).map (fun j => (i, j)))).flatten

/-- The symmetric square matrix scipy.spatial.distance.squareform builds
from a condensed vector: zero diagonal, and the (i,j) entry is the
condensed entry stored for the unordered pair {i,j} (the k-th condensed
entry belongs to the k-th upper-triangle pair). -/
def sqmat (n : ℕ) (v : List F) (i j : ℕ) : F :=
  if i = j then F.fin 0
  else (((condPairs n).zip v).find?
          (fun q => decide (q.1 = (min i j, max i j)))).elim F.nan (fun q => q.2)

/-- Is there an edge between nodes i and j of the pruned graph of one
normalized row?  nx.from_numpy_array creates an edge for every nonzero
off-diagonal entry (IEEE !=, so a NaN entry also yields an edge), and
geodesic_transform then removes every edge whose weight equals 1. -/
def prunedEdgeB (n : ℕ) (v : List F) (i j : ℕ) : Bool :=
  decide (i ≠ j) && !(F.eqv (sqmat n v i j) (F.fin 0)) && !(F.eqv (sqmat n v i j) (F.fin 1))

/-- The initial distance matrix of Floyd-Warshall on the pruned graph:
zero on the diagonal, the edge weight where an edge exists, +inf
otherwise. -/
def initD (n : ℕ) (v : List F) (i j : ℕ) : F :=
  if i = j then F.fin 0
  else if prunedEdgeB n v i j then sqmat n v i j else F.pinf

/-- nx.floyd_warshall_numpy: relax through every intermediate node in
order. -/
def fw (n : ℕ) (d : ℕ → ℕ → F) : ℕ → ℕ → F :=
  (List.range n).foldl (fun d k => fun i j => F.min2 (d i j) (F.add (d i k) (d k j))) d

/-- One row of geodesic_transform: reconstruct the square matrix, build
and prune the graph, run all-pairs shortest paths, re-condense.  scipy's
squareform raises ValueError when the vector length is not a triangular
number. -/
def geodesic_row (v : List F) : PyResult (List F) :=
  let n := sqDim v.length
  if n * (n - 1) = 2 * v.length then
    .ok ((condPairs n).map (fun p => fw n (initD n v) p.1 p.2))
  else .error (.valueError "Incompatible vector size.")

/-- geodesic_transform (transform.py lines 172-200): min-max normalize the
whole batch once, then per row prune the weight-1 edges and replace each
entry by the shortest-path distance; the measure label is derived from the
original label. -/
def geodesic_transform (rdms : RDMs) : PyResult RDMs :=
  match mapOk geodesic_row (minmax_transform rdms).get_vectors with
  | .error e => .error e
  | .ok dissimilarities =>
      .ok { vectors := dissimilarities,
            dissimilarity_measure := "geodesic transformed " ++ rdms.dissimilarity_measure,
            descriptors := deepcopy rdms.descriptors,
            rdm_descriptors := deepcopy rdms.rdm_descriptors,
            pattern_descriptors := deepcopy rdms.pattern_descriptors }

/-! ## Concrete batches used by the claim theorems -/

/-- Batch exhibiting the geo-topological overwrite: entries
0, 0.2, 0.4, 0.5, 2, 3 with l = 0, u = 3/5 give gt_min = 0, gt_max = 1/2. -/
def exC1 : RDMs := ⟨[[F.fin 0, F.fin (1/5), F.fin (2/5), F.fin (1/2), F.fin 2, F.fin 3]], "", [], [], []⟩

/-- Batch on which geotopological_transform with l = 0, u = 1 differs from
minmax_transform (its max, 1/2, is below 1). -/
def exC2 : RDMs := ⟨[[F.fin 0, F.fin (2/5), F.fin (1/2)]], "", [], [], []⟩

/-- A constant batch: global max equals global min. -/
def exC4 : RDMs := ⟨[[F.fin 2, F.fin 2, F.fin 2]], "", [], [], []⟩

/-- A batch fed to geotopological_transform with degenerate quantiles. -/
def exC4b : RDMs := ⟨[[F.fin 0, F.fin 1, F.fin 2]], "", [], [], []⟩

/-- A batch fed to geotopological_transform with l > u. -/
def exC5 : RDMs := ⟨[[F.fin 0, F.fin 1, F.fin 2]], "five", [], [], []⟩

/-- Batch refuting the pass-through conjunct of C3: the normalized row 0
is [0, 1/4, 1/4], which contains no entry equal to 1, but the entry
normalized to exactly 0 gets no graph edge, so its output distance is the
two-hop path 1/2, not 0. -/
def exC3 : RDMs := ⟨[[F.fin 1, F.fin 2, F.fin 2], [F.fin 3, F.fin 5, F.fin 5]], "", [], [], []⟩


/-- Batch for the C3 witness: the normalized batch is
[[1/8, 1/4, 3/8], [0, 1/2, 1]]; row 0 has no entry equal to 0 or 1 and its
matrix satisfies the triangle inequality, row 1 disconnects node 1. -/
def exW3 : RDMs := ⟨[[F.fin 2, F.fin 3, F.fin 4], [F.fin 1, F.fin 5, F.fin 9]], "", [], [], []⟩

/-- The container geodesic_transform produces from exW3. -/
def exW3out : RDMs :=
  ⟨[[F.fin (1/8), F.fin (1/4), F.fin (3/8)], [F.pinf, F.fin (1/2), F.pinf]],
   "geodesic transformed ", [], [], []⟩

/-- The container geodesic_transform produces from exC10. -/
def exC10out : RDMs :=
  ⟨[[F.pinf, F.fin (1/2), F.pinf]], "geodesic transformed ", [], [], []⟩

/-- Batch for the C7 witness and the spec's concrete min-max example. -/
def exC7 : RDMs := ⟨[[F.fin 0, F.fin 5], [F.fin 10, F.fin 15]], "corr", [], [], []⟩

/-- Batch for the C8 witness (the spec's rank example row [1,2,1,2,3]
extended with a 0 so that all six condensed entries are used). -/
def exC8 : RDMs := ⟨[[F.fin 1, F.fin 2, F.fin 1, F.fin 2, F.fin 3, F.fin 0]], "m", [], [], []⟩

/-- The container rank_transform with method "ordinal" produces from exC8:
ranks [2, 4, 3, 5, 6, 1] and measure "m (ranks)". -/
def exC8out : RDMs :=
  ⟨[[F.fin 2, F.fin 4, F.fin 3, F.fin 5, F.fin 6, F.fin 1]], "m (ranks)", [], [], []⟩

/-- Batch for the C9 witness: one negative entry and one positive entry,
measured as "squared euclidean". -/
def exC9 : RDMs := ⟨[[F.fin (-1), F.fin 4, F.fin 9]], "squared euclidean", [], [], []⟩

/-- Batch for the C10 witness: the pair (0,1) holds the global minimum 1,
so its normalized entry 0 gets no edge, and the alternative path through
node 2 is severed by the weight-1 prune: its output distance is +inf. -/
def exC10 : RDMs := ⟨[[F.fin 1, F.fin 2, F.fin 3]], "", [], [], []⟩

/-! ## Facts about the IEEE value type F -/

theorem F.lt_irrefl (x : F) : F.lt x x = false := by
  cases x <;> simp [F.lt]

theorem F.le_refl_fin (a : ℚ) : F.le (.fin a) (.fin a) = true := by
  simp [F.le]

theorem F.lt_fin_iff {a b : ℚ} : F.lt (.fin a) (.fin b) = true ↔ a < b := by
  simp [F.lt]

theorem F.le_fin_iff {a b : ℚ} : F.le (.fin a) (.fin b) = true ↔ a ≤ b := by
  simp [F.le]

theorem F.le_of_lt {x y : F} (h : F.lt x y = true) : F.le x y = true := by
  cases x <;> cases y <;> simp_all [F.lt, F.le] <;> linarith

theorem F.not_lt_of_le {x y : F} (h : F.le x y = true) : F.lt y x = false := by
  cases x <;> cases y <;> simp_all [F.lt, F.le] <;> linarith

theorem F.le_nan_false {x : F} : F.le x .nan = false := by
  cases x <;> simp [F.le]

theorem F.nan_le_false {x : F} : F.le .nan x = false := by
  cases x <;> simp [F.le]

theorem F.isFin_iff {x : F} : x.isFin = true ↔ ∃ q, x = .fin q := by
  cases x <;> simp [F.isFin]

theorem F.sub_fin {a b : ℚ} : F.sub (.fin a) (.fin b) = .fin (a - b) := rfl

theorem F.add_fin {a b : ℚ} : F.add (.fin a) (.fin b) = .fin (a + b) := rfl

theorem F.div_fin {a b : ℚ} (h : b ≠ 0) :
    F.div (.fin a) (.fin b) = .fin (a / b) := by
  simp [F.div, h]

theorem F.min2_left {a b : F} (h : F.le a b = true) : F.min2 a b = a := by
  have hna : a.isNan = false := by cases a <;> cases b <;> simp_all [F.le, F.isNan]
  have hnb : b.isNan = false := by cases a <;> cases b <;> simp_all [F.le, F.isNan]
  simp [F.min2, hna, hnb, F.not_lt_of_le h]

/-! ## Fold lemmas for the batch-wide reductions -/

theorem foldl_max2_fin (l : List F) (a : ℚ) (hfin : ∀ x ∈ l, x.isFin = true) :
    ∃ m, l.foldl F.max2 (.fin a) = .fin m ∧ a ≤ m ∧
      ∀ x ∈ l, F.le x (.fin m) = true := by
  induction l generalizing a with
  | nil => exact ⟨a, rfl, le_refl a, by simp⟩
  | cons x xs ih =>
      obtain ⟨qx, rfl⟩ := F.isFin_iff.mp (hfin x (by simp))
      have hstep : F.max2 (.fin a) (.fin qx) = .fin (if a < qx then qx else a) := by
        by_cases h : a < qx <;> simp [F.max2, F.isNan, F.lt, h]
      obtain ⟨m, hm, ham, hbound⟩ := ih (if a < qx then qx else a)
        (fun y hy => hfin y (by simp [hy]))
      refine ⟨m, by simpa [hstep] using hm, ?_, ?_⟩
      · by_cases h : a < qx
        · simp [h] at ham; linarith
        · simpa [h] using ham
      · intro y hy
        rcases List.mem_cons.mp hy with rfl | hy
        · have hq : qx ≤ m := by
            by_cases h : a < qx
            · simpa [h] using ham
            · simp [h] at ham; push_neg at h; linarith
          exact F.le_fin_iff.mpr hq
        · exact hbound y hy

theorem foldl_min2_fin (l : List F) (a : ℚ) (hfin : ∀ x ∈ l, x.isFin = true) :
    ∃ m, l.foldl F.min2 (.fin a) = .fin m ∧ m ≤ a ∧
      ∀ x ∈ l, F.le (.fin m) x = true := by
  induction l generalizing a with
  | nil => exact ⟨a, rfl, le_refl a, by simp⟩
  | cons x xs ih =>
      obtain ⟨qx, rfl⟩ := F.isFin_iff.mp (hfin x (by simp))
      have hstep : F.min2 (.fin a) (.fin qx) = .fin (if qx < a then qx else a) := by
        by_cases h : qx < a <;> simp [F.min2, F.isNan, F.lt, h]
      obtain ⟨m, hm, ham, hbound⟩ := ih (if qx < a then qx else a)
        (fun y hy => hfin y (by simp [hy]))
      refine ⟨m, by simpa [hstep] using hm, ?_, ?_⟩
      · by_cases h : qx < a
        · simp [h] at ham; linarith
        · simpa [h] using ham
      · intro y hy
        rcases List.mem_cons.mp hy with rfl | hy
        · have hq : m ≤ qx := by
            by_cases h : qx < a
            · simpa [h] using ham
            · simp [h] at ham; push_neg at h; linarith
          exact F.le_fin_iff.mpr hq
        · exact hbound y hy

/-- On a nonempty all-finite list, the numpy max reduction is a finite
upper bound of every entry. -/
theorem batchMax_spec (l : List F) (hne : l ≠ []) (hfin : ∀ x ∈ l, x.isFin = true) :
    ∃ m, batchMax l = .fin m ∧ ∀ x ∈ l, F.le x (.fin m) = true := by
  cases l with
  | nil => exact absurd rfl hne
  | cons x xs =>
      obtain ⟨qx, rfl⟩ := F.isFin_iff.mp (hfin x (by simp))
      obtain ⟨m, hm, ham, hbound⟩ := foldl_max2_fin xs qx
        (fun y hy => hfin y (by simp [hy]))
      refine ⟨m, hm, ?_⟩
      intro y hy
      rcases List.mem_cons.mp hy with rfl | hy
      · exact F.le_fin_iff.mpr ham
      · exact hbound y hy

/-- On a nonempty all-finite list, the numpy min reduction is a finite
lower bound of every entry. -/
theorem batchMin_spec (l : List F) (hne : l ≠ []) (hfin : ∀ x ∈ l, x.isFin = true) :
    ∃ m, batchMin l = .fin m ∧ ∀ x ∈ l, F.le (.fin m) x = true := by
  cases l with
  | nil => exact absurd rfl hne
  | cons x xs =>
      obtain ⟨qx, rfl⟩ := F.isFin_iff.mp (hfin x (by simp))
      obtain ⟨m, hm, ham, hbound⟩ := foldl_min2_fin xs qx
        (fun y hy => hfin y (by simp [hy]))
      refine ⟨m, hm, ?_⟩
      intro y hy
      rcases List.mem_cons.mp hy with rfl | hy
      · exact F.le_fin_iff.mpr ham
      · exact hbound y hy

theorem allFin_iff {vs : List (List F)} :
    allFin vs = true ↔ ∀ x ∈ flatten vs, x.isFin = true := by
  simp [allFin, flatten, List.all_eq_true, List.mem_flatten]
  tauto

/-! ## Positional list helpers -/

theorem getD_map_lt {α β : Type} (f : α → β) (l : List α) (i : ℕ) (da : α) (db : β)
    (h : i < l.length) : (l.map f).getD i db = f (l.getD i da) := by
  rw [List.getD_eq_getElem?_getD, List.getD_eq_getElem?_getD, List.getElem?_map,
    List.getElem?_eq_getElem h]
  simp

theorem getD_mem_of_lt {α : Type} (l : List α) (i : ℕ) (d : α) (h : i < l.length) :
    l.getD i d ∈ l := by
  rw [List.getD_eq_getElem l d h]
  exact List.getElem_mem h

theorem getD_default_of_le {α : Type} (l : List α) (i : ℕ) (d : α) (h : l.length ≤ i) :
    l.getD i d = d := by
  rw [List.getD_eq_getElem?_getD, List.getElem?_eq_none h]
  rfl

theorem flatten_map_map (f : F → F) (vs : List (List F)) :
    flatten (vs.map (List.map f)) = (flatten vs).map f := by
  induction vs with
  | nil => rfl
  | cons r rs ih => simp_all [flatten]

theorem mem_flatten_of_getD {vs : List (List F)} {i k : ℕ}
    (hi : i < vs.length) (hk : k < (vs.getD i []).length) :
    (vs.getD i []).getD k F.nan ∈ flatten vs := by
  have h1 : (vs.getD i []).getD k F.nan ∈ vs.getD i [] := getD_mem_of_lt _ _ _ hk
  have h2 : vs.getD i [] ∈ vs := getD_mem_of_lt _ _ _ hi
  exact List.mem_flatten.mpr ⟨_, h2, h1⟩

/-! ## The min-max rescale -/

/-- On an all-finite batch with a nondegenerate range, the global min and
max are finite, and the elementwise rescale of minmax_transform sends every
entry into [0,1], the global min to 0 and the global max to 1. -/
theorem minmax_rescale_spec (rdms : RDMs)
    (hfin : allFin rdms.vectors = true)
    (hlt : F.lt (batchMin (flatten rdms.vectors)) (batchMax (flatten rdms.vectors)) = true) :
    ∃ qmin qmax : ℚ,
      batchMin (flatten rdms.vectors) = .fin qmin ∧
      batchMax (flatten rdms.vectors) = .fin qmax ∧ qmin < qmax ∧
      ∀ x ∈ flatten rdms.vectors, ∃ qx : ℚ, x = .fin qx ∧
        F.div (F.sub x (.fin qmin)) (F.sub (.fin qmax) (.fin qmin)) =
          .fin ((qx - qmin) / (qmax - qmin)) ∧
        0 ≤ (qx - qmin) / (qmax - qmin) ∧ (qx - qmin) / (qmax - qmin) ≤ 1 ∧
        (qx = qmin → (qx - qmin) / (qmax - qmin) = 0) ∧
        (qx = qmax → (qx - qmin) / (qmax - qmin) = 1) := by
  have hfin' := allFin_iff.mp hfin
  have hne : flatten rdms.vectors ≠ [] := by
    intro h
    rw [h] at hlt
    simp [batchMin, batchMax, F.lt] at hlt
  obtain ⟨qmin, hmin, hminb⟩ := batchMin_spec _ hne hfin'
  obtain ⟨qmax, hmax, hmaxb⟩ := batchMax_spec _ hne hfin'
  rw [hmin, hmax] at hlt
  have hqlt : qmin < qmax := F.lt_fin_iff.mp hlt
  have hd : qmax - qmin ≠ 0 := by linarith
  refine ⟨qmin, qmax, hmin, hmax, hqlt, ?_⟩
  intro x hx
  obtain ⟨qx, rfl⟩ := F.isFin_iff.mp (hfin' x hx)
  have h1 : qmin ≤ qx := F.le_fin_iff.mp (hminb _ hx)
  have h2 : qx ≤ qmax := F.le_fin_iff.mp (hmaxb _ hx)
  refine ⟨qx, rfl, ?_, ?_, ?_, ?_, ?_⟩
  · rw [F.sub_fin, F.sub_fin, F.div_fin hd]
  · apply div_nonneg <;> linarith
  · rw [div_le_one (by linarith)]; linarith
  · intro h; rw [h]; simp
  · intro h; rw [h]; exact div_self hd

/-- minmax_transform computes the elementwise rescale of every row by the
shared global min and max. -/
theorem minmax_vectors_eq (rdms : RDMs) :
    (minmax_transform rdms).vectors =
      rdms.vectors.map (List.map (fun x =>
        F.div (F.sub x (batchMin (flatten rdms.vectors)))
          (F.sub (batchMax (flatten rdms.vectors)) (batchMin (flatten rdms.vectors))))) := rfl

/-! ## C7 -/

/-- C7: on every all-finite batch whose global max is strictly greater than
its global min, minmax_transform maps every entry into [0,1]; every entry
equal to the global min becomes 0 and every entry equal to the global max
becomes 1. -/
theorem C7_minmax_correct (rdms : RDMs)
    (hfin : allFin rdms.vectors = true)
    (hlt : F.lt (batchMin (flatten rdms.vectors)) (batchMax (flatten rdms.vectors)) = true) :
    (∀ y ∈ flatten (minmax_transform rdms).vectors, ∃ q : ℚ, y = .fin q ∧ 0 ≤ q ∧ q ≤ 1)
    ∧ (∀ i k : ℕ, (rdms.vectors.getD i []).getD k F.nan = batchMin (flatten rdms.vectors) →
        ((minmax_transform rdms).vectors.getD i []).getD k F.nan = F.fin 0)
    ∧ (∀ i k : ℕ, (rdms.vectors.getD i []).getD k F.nan = batchMax (flatten rdms.vectors) →
        ((minmax_transform rdms).vectors.getD i []).getD k F.nan = F.fin 1) := by
  obtain ⟨qmin, qmax, hmin, hmax, hqlt, hval⟩ := minmax_rescale_spec rdms hfin hlt
  have hout : (minmax_transform rdms).vectors =
      rdms.vectors.map (List.map (fun x => F.div (F.sub x (.fin qmin)) (F.sub (.fin qmax) (.fin qmin)))) := by
    rw [minmax_vectors_eq, hmin, hmax]
  have hpos : ∀ i k : ℕ, i < rdms.vectors.length → k < (rdms.vectors.getD i []).length →
      ((minmax_transform rdms).vectors.getD i []).getD k F.nan =
        F.div (F.sub ((rdms.vectors.getD i []).getD k F.nan) (.fin qmin))
          (F.sub (.fin qmax) (.fin qmin)) := by
    intro i k hi hk
    rw [hout, getD_map_lt _ _ _ [] _ hi, getD_map_lt _ _ _ F.nan _ hk]
  refine ⟨?_, ?_, ?_⟩
  · intro y hy
    rw [hout, flatten_map_map] at hy
    obtain ⟨x, hx, rfl⟩ := List.mem_map.mp hy
    obtain ⟨qx, rfl, heq, h0, h1, _, _⟩ := hval x hx
    exact ⟨_, heq, h0, h1⟩
  · intro i k hE
    by_cases hi : i < rdms.vectors.length
    · by_cases hk : k < (rdms.vectors.getD i []).length
      · have hx := mem_flatten_of_getD hi hk
        obtain ⟨qx, hqx, heq, _, _, hmin0, _⟩ := hval _ hx
        rw [hqx] at heq
        rw [hpos i k hi hk, hqx, heq,
          hmin0 (by rw [hqx, hmin] at hE; exact (F.fin.injEq _ _).mp hE)]
      · push_neg at hk
        rw [getD_default_of_le _ _ _ hk, hmin] at hE
        simp at hE
    · push_neg at hi
      rw [getD_default_of_le _ _ _ hi, hmin] at hE
      simp at hE
  · intro i k hE
    by_cases hi : i < rdms.vectors.length
    · by_cases hk : k < (rdms.vectors.getD i []).length
      · have hx := mem_flatten_of_getD hi hk
        obtain ⟨qx, hqx, heq, _, _, _, hmax1⟩ := hval _ hx
        rw [hqx] at heq
        rw [hpos i k hi hk, hqx, heq,
          hmax1 (by rw [hqx, hmax] at hE; exact (F.fin.injEq _ _).mp hE)]
      · push_neg at hk
        rw [getD_default_of_le _ _ _ hk, hmax] at hE
        simp at hE
    · push_neg at hi
      rw [getD_default_of_le _ _ _ hi, hmax] at hE
      simp at hE

/-- C7 witness: the spec's concrete example [[0,5],[10,15]] maps to
[[0, 1/3], [2/3, 1]], and by the theorem all entries lie in [0,1]. -/
theorem C7_minmax_correct_witness :
    (allFin exC7.vectors = true)
    ∧ F.lt (batchMin (flatten exC7.vectors)) (batchMax (flatten exC7.vectors)) = true
    ∧ (minmax_transform exC7).vectors = [[F.fin 0, F.fin (1/3)], [F.fin (2/3), F.fin 1]]
    ∧ (∀ y ∈ flatten (minmax_transform exC7).vectors, ∃ q : ℚ, y = .fin q ∧ 0 ≤ q ∧ q ≤ 1) :=
  ⟨by decide, by with_unfolding_all decide, by with_unfolding_all decide,
   (C7_minmax_correct exC7 (by decide) (by with_unfolding_all decide)).1⟩

/-! ## C1 -/

/-- C1: refuted as stated; the code evaluated at the failing input.  On the
batch [0, 0.2, 0.4, 0.5, 2, 3] with l = 0, u = 3/5 the quantiles are
gt_min = 0 and gt_max = 1/2; the claim says the middle-band entry with
original value 2/5 becomes (2/5 - 0)/(1/2 - 0) = 4/5, but the code first
rescales it to 4/5 and then the third masked assignment overwrites it with
1 because 4/5 > gt_max: entries are reprocessed after being modified. -/
theorem C1_geotopological_overwrite_eval :
    geotopological_transform exC1 0 (3/5) =
      .ok { vectors := [[F.fin 0, F.fin (2/5), F.fin 1, F.fin 1, F.fin 1, F.fin 1]],
            dissimilarity_measure := "geo-topological transformed ",
            descriptors := [], rdm_descriptors := [], pattern_descriptors := [] }
    ∧ quantile 0 (flatten exC1.vectors) = F.fin 0
    ∧ quantile (3/5) (flatten exC1.vectors) = F.fin (1/2)
    ∧ F.le (quantile 0 (flatten exC1.vectors)) (F.fin (2/5)) = true
    ∧ F.le (F.fin (2/5)) (quantile (3/5) (flatten exC1.vectors)) = true
    ∧ geotopRescale (quantile 0 (flatten exC1.vectors))
        (quantile (3/5) (flatten exC1.vectors)) (F.fin (2/5)) = F.fin (4/5)
    ∧ (F.fin 1 : F) ≠ F.fin (4/5) := by
  refine ⟨by with_unfolding_all decide, by with_unfolding_all decide, by with_unfolding_all decide, by with_unfolding_all decide, by with_unfolding_all decide, by with_unfolding_all decide, by with_unfolding_all decide⟩

/-! ## C2 -/

/-- C2: refuted; the code evaluated at the failing input.  On the batch
[0, 2/5, 1/2], minmax_transform gives [0, 4/5, 1], while
geotopological_transform with l = 0, u = 1 gives [0, 1, 1]: after the
middle-band rescale the third masked assignment overwrites every rescaled
value exceeding the raw maximum 1/2 with 1, so the dissimilarity blocks
differ. -/
theorem C2_geotop_l0_u1_differs_from_minmax :
    geotopological_transform exC2 0 1 =
      .ok { vectors := [[F.fin 0, F.fin 1, F.fin 1]],
            dissimilarity_measure := "geo-topological transformed ",
            descriptors := [], rdm_descriptors := [], pattern_descriptors := [] }
    ∧ (minmax_transform exC2).vectors = [[F.fin 0, F.fin (4/5), F.fin 1]]
    ∧ (match geotopological_transform exC2 0 1 with
        | .ok r => r.vectors
        | .error _ => []) ≠ (minmax_transform exC2).vectors := by
  refine ⟨by with_unfolding_all decide, by with_unfolding_all decide, by with_unfolding_all decide⟩

/-! ## Counting lemmas for the rank statistics -/

theorem countP_lt_of_mem_not {α : Type} (l : List α) (p : α → Bool) (a : α)
    (ha : a ∈ l) (hpa : p a = false) : l.countP p < l.length := by
  induction l with
  | nil => cases ha
  | cons b l ih =>
      rw [List.countP_cons]
      rcases List.mem_cons.mp ha with rfl | ha
      · rw [hpa]
        simpa using Nat.lt_succ_of_le (List.countP_le_length p)
      · by_cases hb : p b = true
        · simpa [hb] using ih ha
        · rw [Bool.not_eq_true] at hb
          simp only [hb, List.length_cons]
          exact Nat.lt_succ_of_lt (ih ha)

theorem countP_lt_countP {α : Type} (l : List α) (p q : α → Bool)
    (himp : ∀ x ∈ l, p x = true → q x = true) (a : α) (ha : a ∈ l)
    (hpa : p a = false) (hqa : q a = true) : l.countP p < l.countP q := by
  induction l with
  | nil => cases ha
  | cons b l ih =>
      rw [List.countP_cons, List.countP_cons]
      have hmono : l.countP p ≤ l.countP q :=
        List.countP_mono_left (fun x hx => himp x (List.mem_cons_of_mem b hx))
      rcases List.mem_cons.mp ha with rfl | ha
      · rw [hpa, hqa]
        simpa using Nat.lt_succ_of_le hmono
      · have hih := ih (fun x hx h => himp x (List.mem_cons_of_mem b hx) h) ha
        by_cases hb : p b = true
        · have hqb := himp b (List.mem_cons_self b l) hb
          simp [hb, hqb]
          omega
        · rw [Bool.not_eq_true] at hb
          by_cases hqb : q b = true
          · simp [hb, hqb]
            omega
          · rw [Bool.not_eq_true] at hqb
            simp [hb, hqb]
            omega

/-! ## The ordinal-rank key order -/

theorem keyLt_irrefl (p : ℕ × F) : keyLt p p = false := by
  simp [keyLt, F.lt_irrefl]

theorem keyLt_trans {a b c : ℕ × F} (hab : keyLt a b = true) (hbc : keyLt b c = true) :
    keyLt a c = true := by
  obtain ⟨i, x⟩ := a
  obtain ⟨j, y⟩ := b
  obtain ⟨k, z⟩ := c
  simp only [keyLt, Bool.or_eq_true, Bool.and_eq_true, decide_eq_true_eq] at *
  rcases hab with h1 | ⟨h1, hij⟩ <;> rcases hbc with h2 | ⟨h2, hjk⟩
  · left
    cases x <;> cases y <;> cases z <;> simp_all [F.lt] <;> linarith
  · subst h2
    exact Or.inl h1
  · subst h1
    exact Or.inl h2
  · subst h1
    exact Or.inr ⟨h2, Nat.lt_trans hij hjk⟩

theorem keyLt_trichotomy {a b : ℕ × F} (hx : ∃ qa, a.2 = F.fin qa)
    (hy : ∃ qb, b.2 = F.fin qb) (hne : a.1 ≠ b.1) :
    keyLt a b = true ∨ keyLt b a = true := by
  obtain ⟨i, x⟩ := a
  obtain ⟨j, y⟩ := b
  obtain ⟨qa, rfl⟩ := hx
  obtain ⟨qb, rfl⟩ := hy
  simp only [keyLt, Bool.or_eq_true, Bool.and_eq_true, decide_eq_true_eq] at *
  rcases lt_trichotomy qa qb with h | h | h
  · exact Or.inl (Or.inl (F.lt_fin_iff.mpr h))
  · rcases Nat.lt_or_ge i j with hij | hij
    · exact Or.inl (Or.inr ⟨by rw [h], hij⟩)
    · refine Or.inr (Or.inr ⟨by rw [h], ?_⟩)
      omega
  · exact Or.inr (Or.inl (F.lt_fin_iff.mpr h))

theorem exists_max_key : ∀ (ks : List (ℕ × F)), ks ≠ [] →
    ∃ m ∈ ks, ∀ p ∈ ks, keyLt m p = false := by
  intro ks
  induction ks with
  | nil => intro h; exact absurd rfl h
  | cons k ks ih =>
      intro _
      by_cases hks : ks = []
      · subst hks
        refine ⟨k, by simp, ?_⟩
        intro p hp
        simp at hp
        subst hp
        exact keyLt_irrefl p
      · obtain ⟨m, hm, hmax⟩ := ih hks
        by_cases hk : keyLt m k = true
        · refine ⟨k, by simp, ?_⟩
          intro p hp
          rcases List.mem_cons.mp hp with rfl | hp
          · exact keyLt_irrefl p
          · by_contra hkp
            rw [Bool.not_eq_false] at hkp
            exact absurd (keyLt_trans hk hkp) (by rw [hmax p hp]; simp)
        · refine ⟨m, List.mem_cons_of_mem k hm, ?_⟩
          intro p hp
          rcases List.mem_cons.mp hp with rfl | hp
          · rw [Bool.not_eq_true] at hk
            exact hk
          · exact hmax p hp

/-- The ordinal ranks of a list of keys that are pairwise ordered (finite
values, distinct indices) form a permutation of 0, ..., n-1: ranking by
"number of strictly smaller keys" is a bijection onto positions. -/
theorem ranks_perm : ∀ (n : ℕ) (ks : List (ℕ × F)), ks.length = n →
    (∀ p ∈ ks, ∃ q, p.2 = F.fin q) → ((ks.map Prod.fst).Nodup) →
    List.Perm (ks.map (fun p => ks.countP (fun q => keyLt q p))) (List.range n) := by
  intro n
  induction n with
  | zero =>
      intro ks hlen _ _
      rw [List.length_eq_zero.mp hlen]
      simp
  | succ n ih =>
      intro ks hlen hfin hnd
      have hne : ks ≠ [] := by
        intro h
        rw [h] at hlen
        simp at hlen
      obtain ⟨m, hm, hmax⟩ := exists_max_key ks hne
      obtain ⟨s, t, hks_eq⟩ := List.append_of_mem hm
      have hperm : ks.Perm (m :: (s ++ t)) := by
        rw [hks_eq]
        exact List.perm_middle
      have hsubE : ∀ p ∈ s ++ t, p ∈ ks := fun p hp =>
        hperm.mem_iff.mpr (List.mem_cons_of_mem m hp)
      have hmapnd : (m.1 :: (s ++ t).map Prod.fst).Nodup := by
        have h := (hperm.map Prod.fst).nodup hnd
        simpa using h
      have hm1 : m.1 ∉ (s ++ t).map Prod.fst ∧ ((s ++ t).map Prod.fst).Nodup :=
        List.nodup_cons.mp hmapnd
      have hlenE : (s ++ t).length = n := by
        have h := hperm.length_eq
        rw [hlen] at h
        simpa using h.symm
      have hlt : ∀ p ∈ s ++ t, keyLt p m = true := by
        intro p hp
        have h1 : p.1 ≠ m.1 := by
          intro h
          exact hm1.1 (h ▸ List.mem_map_of_mem Prod.fst hp)
        rcases keyLt_trichotomy (hfin p (hsubE p hp)) (hfin m hm) h1 with h | h
        · exact h
        · rw [hmax p (hsubE p hp)] at h
          cases h
      have hrankm : ks.countP (fun q => keyLt q m) = n := by
        rw [hperm.countP_eq, List.countP_cons, keyLt_irrefl]
        rw [List.countP_eq_length.mpr hlt, hlenE]
        simp
      have hcongr : (s ++ t).map (fun p => ks.countP (fun q => keyLt q p)) =
          (s ++ t).map (fun p => (s ++ t).countP (fun q => keyLt q p)) := by
        apply List.map_congr_left
        intro p hp
        rw [hperm.countP_eq, List.countP_cons, hmax p (hsubE p hp)]
        simp
      have hIH : List.Perm ((s ++ t).map (fun p => (s ++ t).countP (fun q => keyLt q p)))
          (List.range n) :=
        ih (s ++ t) hlenE (fun p hp => hfin p (hsubE p hp)) hm1.2
      have hstep1 : List.Perm (ks.map (fun p => ks.countP (fun q => keyLt q p)))
          (ks.countP (fun q => keyLt q m) :: (s ++ t).map (fun p => ks.countP (fun q => keyLt q p))) := by
        have h := hperm.map (fun p => ks.countP (fun q => keyLt q p))
        simpa using h
      have hstep2 : (ks.countP (fun q => keyLt q m) :: (s ++ t).map (fun p => ks.countP (fun q => keyLt q p)))
          = n :: (s ++ t).map (fun p => (s ++ t).countP (fun q => keyLt q p)) := by
        rw [hrankm, hcongr]
      have hstep3 : List.Perm (n :: (s ++ t).map (fun p => (s ++ t).countP (fun q => keyLt q p)))
          (n :: List.range n) := hIH.cons n
      have hstep4 : List.Perm (n :: List.range n) (List.range (n + 1)) := by
        rw [List.range_succ]
        exact (List.perm_append_singleton n (List.range n)).symm
      exact ((hstep1.trans (hstep2 ▸ List.Perm.refl _)).trans hstep3).trans hstep4

theorem countP_range_lt : ∀ n k : ℕ, k ≤ n →
    (List.range n).countP (fun j => decide (j < k)) = k := by
  intro n
  induction n with
  | zero =>
      intro k hk
      interval_cases k
      simp
  | succ n ih =>
      intro k hk
      rw [List.range_succ, List.countP_append]
      by_cases h : k ≤ n
      · rw [ih k h]
        simp [List.countP_cons, Nat.not_lt.mpr h]
      · have hk1 : k = n + 1 := by omega
        subst hk1
        have hall : (List.range n).countP (fun j => decide (j < n + 1)) = n := by
          rw [List.countP_eq_length.mpr, List.length_range]
          intro a ha
          simp only [List.mem_range] at ha
          simp
          omega
        rw [hall]
        simp

theorem mem_enum_F (l : List F) (p : ℕ × F) (hp : p ∈ l.enum) :
    ∃ h : p.1 < l.length, p.2 = l[p.1] := by
  rw [List.mem_enum_iff_getElem?] at hp
  obtain ⟨h1, h2⟩ := List.getElem?_eq_some_iff.mp hp
  exact ⟨h1, h2.symm⟩

theorem ordinalRanks_eq_map (v : List F) :
    ordinalRanks v = (v.enum.map (fun p => v.enum.countP (fun q => keyLt q p))).map
      (fun c : ℕ => F.fin ((c : ℚ) + 1)) := by
  rw [List.map_map]
  rfl

/-- The ordinal ranks of an all-finite row are a permutation of
1, 2, ..., n. -/
theorem ordinalRanks_perm (v : List F) (hfin : ∀ x ∈ v, x.isFin = true) :
    List.Perm (ordinalRanks v) ((List.range v.length).map (fun k : ℕ => F.fin ((k : ℚ) + 1))) := by
  have hfin' : ∀ p ∈ v.enum, ∃ q, p.2 = F.fin q := by
    intro p hp
    have hmem : p.2 ∈ v := by
      have h := List.mem_map_of_mem Prod.snd hp
      rwa [List.enum_map_snd] at h
    exact F.isFin_iff.mp (hfin _ hmem)
  have hnd : (v.enum.map Prod.fst).Nodup := by
    rw [List.enum_map_fst]
    exact List.nodup_range _
  have h := (ranks_perm v.length v.enum List.enum_length hfin' hnd).map
    (fun c : ℕ => F.fin ((c : ℚ) + 1))
  rwa [← ordinalRanks_eq_map] at h

theorem fin_ranks_injective : Function.Injective (fun k : ℕ => F.fin ((k : ℚ) + 1)) := by
  intro a b h
  have h1 := (F.fin.injEq _ _).mp h
  have h2 : (a : ℚ) = (b : ℚ) := by linarith
  exact_mod_cast h2

theorem ordinalRanks_nodup (v : List F) (hfin : ∀ x ∈ v, x.isFin = true) :
    (ordinalRanks v).Nodup :=
  (ordinalRanks_perm v hfin).symm.nodup
    (List.Nodup.map fin_ranks_injective (List.nodup_range _))

/-- Ordinal ranking is idempotent on all-finite rows: the ranks of the rank
row are the rank row itself. -/
theorem ordinalRanks_getElem (w : List F) (t : ℕ) (hw : t < w.length)
    (hw2 : t < (ordinalRanks w).length) :
    (ordinalRanks w)[t] =
      F.fin ((w.enum.countP (fun q => keyLt q (t, w[t])) : ℚ) + 1) := by
  simp only [ordinalRanks]
  rw [List.getElem_map, List.getElem_enum]

/-- Ordinal ranking is idempotent on all-finite rows: the ranks of the rank
row are the rank row itself. -/
theorem ordinalRanks_idem (v : List F) (hfin : ∀ x ∈ v, x.isFin = true) :
    ordinalRanks (ordinalRanks v) = ordinalRanks v := by
  have hperm := ordinalRanks_perm v hfin
  have hnodup := ordinalRanks_nodup v hfin
  have hlenw : (ordinalRanks v).length = v.length := by
    simp [ordinalRanks]
  apply List.ext_getElem
  · simp [ordinalRanks]
  intro t h1 h2
  rw [ordinalRanks_getElem (ordinalRanks v) t h2 h1]
  obtain ⟨k, hkmem, hwt⟩ := List.mem_map.mp (hperm.subset (List.getElem_mem h2))
  rw [List.mem_range] at hkmem
  rw [← hwt]
  have hA : (ordinalRanks v).enum.countP (fun q => keyLt q (t, F.fin ((k : ℚ) + 1))) =
      (ordinalRanks v).enum.countP (fun q => F.lt q.2 (F.fin ((k : ℚ) + 1))) := by
    apply List.countP_congr
    intro p hp
    obtain ⟨hplt, hpeq⟩ := mem_enum_F _ p hp
    simp only [keyLt, Bool.or_eq_true, Bool.and_eq_true, decide_eq_true_eq]
    by_cases he : p.2 = F.fin ((k : ℚ) + 1)
    · have hidx : p.1 = t := by
        apply (hnodup.getElem_inj_iff).mp
        rw [← hpeq, he, hwt]
      constructor
      · rintro (h | ⟨_, hlt2⟩)
        · exact h
        · rw [hidx] at hlt2
          omega
      · intro h
        exact Or.inl h
    · constructor
      · rintro (h | ⟨h, _⟩)
        · exact h
        · exact absurd h he
      · intro h
        exact Or.inl h
  have hB : (ordinalRanks v).enum.countP (fun q => F.lt q.2 (F.fin ((k : ℚ) + 1))) =
      (ordinalRanks v).countP (fun s => F.lt s (F.fin ((k : ℚ) + 1))) := by
    conv_rhs => rw [← List.enum_map_snd (ordinalRanks v)]
    rw [List.countP_map]
    rfl
  have hC : (ordinalRanks v).countP (fun s => F.lt s (F.fin ((k : ℚ) + 1))) = k := by
    have e1 := hperm.countP_eq (fun s => F.lt s (F.fin ((k : ℚ) + 1)))
    rw [List.countP_map] at e1
    have hcg : (List.range v.length).countP
        ((fun s => F.lt s (F.fin ((k : ℚ) + 1))) ∘ (fun j : ℕ => F.fin ((j : ℚ) + 1))) =
        (List.range v.length).countP (fun j => decide (j < k)) := by
      apply List.countP_congr
      intro j _
      simp only [Function.comp_apply, F.lt_fin_iff, decide_eq_true_eq]
      constructor
      · intro h
        have : (j : ℚ) < (k : ℚ) := by linarith
        exact_mod_cast this
      · intro h
        have : (j : ℚ) < (k : ℚ) := by exact_mod_cast h
        linarith
    exact e1.trans (hcg.trans (countP_range_lt v.length k (le_of_lt hkmem)))
  rw [hA, hB, hC]

/-- Every rank produced by rankdataRow on an all-finite row lies in
[1, n_pairs], for every tie-handling method. -/
theorem rankdataRow_bounds (method : String) (v : List F)
    (hfin : ∀ x ∈ v, x.isFin = true) :
    ∀ y ∈ rankdataRow method v, ∃ q : ℚ, y = .fin q ∧ 1 ≤ q ∧ q ≤ (v.length : ℚ) := by
  intro y hy
  have hle_self : ∀ x ∈ v, F.le x x = true := by
    intro x hx
    obtain ⟨qx, rfl⟩ := F.isFin_iff.mp (hfin x hx)
    exact F.le_fin_iff.mpr (le_refl qx)
  by_cases h1 : method = "ordinal"
  · simp only [rankdataRow, if_pos h1, ordinalRanks] at hy
    obtain ⟨p, hp, rfl⟩ := List.mem_map.mp hy
    refine ⟨_, rfl, by have h0 : (0:ℚ) ≤ _ := Nat.cast_nonneg (v.enum.countP (fun q => keyLt q p)); linarith, ?_⟩
    have hc : v.enum.countP (fun q => keyLt q p) < v.enum.length :=
      countP_lt_of_mem_not _ _ p hp (keyLt_irrefl p)
    rw [List.enum_length] at hc
    exact_mod_cast hc
  · simp only [rankdataRow, if_neg h1] at hy
    by_cases h2 : method = "min"
    · simp only [if_pos h2] at hy
      obtain ⟨x, hx, rfl⟩ := List.mem_map.mp hy
      refine ⟨_, rfl, by have h0 : (0:ℚ) ≤ _ := Nat.cast_nonneg (v.countP (fun y => F.lt y x)); linarith, ?_⟩
      have hc : v.countP (fun y => F.lt y x) < v.length :=
        countP_lt_of_mem_not _ _ x hx (F.lt_irrefl x)
      exact_mod_cast hc
    · simp only [if_neg h2] at hy
      by_cases h3 : method = "max"
      · simp only [if_pos h3] at hy
        obtain ⟨x, hx, rfl⟩ := List.mem_map.mp hy
        refine ⟨_, rfl, ?_, ?_⟩
        · have hc : 0 < v.countP (fun y => F.le y x) :=
            List.countP_pos_iff.mpr ⟨x, hx, hle_self x hx⟩
          exact_mod_cast hc
        · exact_mod_cast List.countP_le_length (fun y => F.le y x)
      · simp only [if_neg h3] at hy
        by_cases h4 : method = "dense"
        · simp only [if_pos h4] at hy
          obtain ⟨x, hx, rfl⟩ := List.mem_map.mp hy
          refine ⟨_, rfl, by have h0 : (0:ℚ) ≤ _ := Nat.cast_nonneg (v.dedup.countP (fun y => F.lt y x)); linarith, ?_⟩
          have hc : v.dedup.countP (fun y => F.lt y x) < v.dedup.length :=
            countP_lt_of_mem_not _ _ x (List.mem_dedup.mpr hx) (F.lt_irrefl x)
          have hd : v.dedup.length ≤ v.length := (List.dedup_sublist v).length_le
          have : v.dedup.countP (fun y => F.lt y x) + 1 ≤ v.length := by omega
          exact_mod_cast this
        · simp only [if_neg h4] at hy
          obtain ⟨x, hx, rfl⟩ := List.mem_map.mp hy
          have hc1 : 0 < v.countP (fun y => F.le y x) :=
            List.countP_pos_iff.mpr ⟨x, hx, hle_self x hx⟩
          have hc2 : v.countP (fun y => F.lt y x) < v.countP (fun y => F.le y x) :=
            countP_lt_countP v _ _ (fun z _ hz => F.le_of_lt hz) x hx
              (F.lt_irrefl x) (hle_self x hx)
          have hc3 : v.countP (fun y => F.le y x) ≤ v.length :=
            List.countP_le_length (fun y => F.le y x)
          refine ⟨_, rfl, ?_, ?_⟩
          · have e1 : (1 : ℚ) ≤ (v.countP (fun y => F.le y x) : ℚ) := by exact_mod_cast hc1
            have e0 : (0 : ℚ) ≤ (v.countP (fun y => F.lt y x) : ℚ) := by positivity
            linarith
          · have e2 : (v.countP (fun y => F.lt y x) : ℚ) + 1 ≤
                (v.countP (fun y => F.le y x) : ℚ) := by exact_mod_cast hc2
            have e3 : (v.countP (fun y => F.le y x) : ℚ) ≤ (v.length : ℚ) := by
              exact_mod_cast hc3
            linarith

/-! ## mapOk and rank_transform plumbing -/

theorem mapOk_ok_of_forall {α β : Type} (f : α → PyResult β) (g : α → β)
    (hf : ∀ a, f a = .ok (g a)) : ∀ l : List α, mapOk f l = .ok (l.map g) := by
  intro l
  induction l with
  | nil => rfl
  | cons a as ih => simp [mapOk, hf a, ih]

theorem mapOk_ok_getD {α β : Type} (f : α → PyResult β) (da : α) (db : β) :
    ∀ (l : List α) (l2 : List β), mapOk f l = .ok l2 →
      l2.length = l.length ∧ ∀ i, i < l.length → f (l.getD i da) = .ok (l2.getD i db) := by
  intro l
  induction l with
  | nil =>
      intro l2 h
      simp only [mapOk] at h
      injection h with h
      subst h
      exact ⟨rfl, fun i hi => by cases hi⟩
  | cons a as ih =>
      intro l2 h
      simp only [mapOk] at h
      cases hfa : f a with
      | error e => rw [hfa] at h; cases h
      | ok b =>
          rw [hfa] at h
          cases hrest : mapOk f as with
          | error e => rw [hrest] at h; cases h
          | ok bs =>
              rw [hrest] at h
              injection h with h
              subst h
              obtain ⟨hlen, hget⟩ := ih bs hrest
              refine ⟨by simp [hlen], ?_⟩
              intro i hi
              cases i with
              | zero => simpa using hfa
              | succ j =>
                  simp only [List.getD_cons_succ]
                  exact hget j (by simpa using hi)

/-- rank_transform on a valid method: the ranked rows and updated label. -/
theorem rank_transform_ok_vectors (rdms : RDMs) (method : String)
    (hm : method ∈ rankMethods) :
    rank_transform rdms method = .ok
      { vectors := rdms.vectors.map (rankdataRow method),
        dissimilarity_measure :=
          if hasSubstr "(ranks)" rdms.dissimilarity_measure then rdms.dissimilarity_measure
          else pstrip (rdms.dissimilarity_measure ++ " (ranks)"),
        descriptors := rdms.descriptors,
        rdm_descriptors := rdms.rdm_descriptors,
        pattern_descriptors := rdms.pattern_descriptors } := by
  have hmap := mapOk_ok_of_forall (fun r => rankdata r method) (rankdataRow method)
    (fun r => by simp [rankdata, hm]) rdms.vectors
  simp [rank_transform, RDMs.get_vectors, hmap, deepcopy]

/-- Whenever rank_transform returns a container, the rows are the ranked
rows (or the batch was empty) and the label follows the append rule. -/
theorem rank_transform_ok_inv (rdms : RDMs) (method : String) (out : RDMs)
    (h : rank_transform rdms method = .ok out) :
    (out.vectors = rdms.vectors.map (rankdataRow method) ∨
      (rdms.vectors = [] ∧ out.vectors = [])) ∧
    out.dissimilarity_measure =
      (if hasSubstr "(ranks)" rdms.dissimilarity_measure then rdms.dissimilarity_measure
       else pstrip (rdms.dissimilarity_measure ++ " (ranks)")) := by
  by_cases hm : method ∈ rankMethods
  · rw [rank_transform_ok_vectors rdms method hm] at h
    injection h with h
    subst h
    exact ⟨Or.inl rfl, rfl⟩
  · simp only [rank_transform, RDMs.get_vectors] at h
    cases hmo : mapOk (fun r => rankdata r method) rdms.vectors with
    | error e => rw [hmo] at h; cases h
    | ok d =>
        rw [hmo] at h
        have hnil : rdms.vectors = [] ∧ d = [] := by
          cases hv : rdms.vectors with
          | nil =>
              rw [hv] at hmo
              simp only [mapOk] at hmo
              injection hmo with hmo
              exact ⟨rfl, hmo.symm⟩
          | cons r rs =>
              rw [hv] at hmo
              simp [mapOk, rankdata, hm] at hmo
        injection h with h
        subst h
        exact ⟨Or.inr ⟨hnil.1, hnil.2⟩, rfl⟩

/-! ## The measure-label append rule -/

theorem startsWithL_refl : ∀ l : List Char, startsWithL l l = true := by
  intro l
  induction l with
  | nil => rfl
  | cons c cs ih => simp [startsWithL, ih]

theorem hasSubstrL_pre : ∀ (pre pat : List Char), hasSubstrL pat (pre ++ pat) = true := by
  intro pre pat
  induction pre with
  | nil =>
      cases pat with
      | nil => rfl
      | cons c cs => simp [hasSubstrL, startsWithL_refl]
  | cons d pre ih => simp [hasSubstrL, ih]

theorem dropWhile_ws_ranks : ∀ m : List Char,
    ∃ pre, (m ++ (' ' :: "(ranks)".data)).dropWhile Char.isWhitespace =
      pre ++ "(ranks)".data := by
  intro m
  induction m with
  | nil =>
      refine ⟨[], ?_⟩
      simp [List.dropWhile]
  | cons c m ih =>
      by_cases hc : Char.isWhitespace c = true
      · obtain ⟨pre, hp⟩ := ih
        refine ⟨pre, ?_⟩
        simpa [List.dropWhile, hc] using hp
      · refine ⟨c :: (m ++ [' ']), ?_⟩
        simp [List.dropWhile, hc]

theorem pstrip_ranks (s : String) :
    ∃ pre, (pstrip (s ++ " (ranks)")).data = pre ++ "(ranks)".data := by
  obtain ⟨pre, hp⟩ := dropWhile_ws_ranks s.data
  refine ⟨pre, ?_⟩
  have hdata : (s ++ " (ranks)").data = s.data ++ (' ' :: "(ranks)".data) := by
    rw [String.data_append]
  have hdw : (pre ++ "(ranks)".data).reverse.dropWhile Char.isWhitespace =
      (pre ++ "(ranks)".data).reverse := by
    rw [List.reverse_append]
    have hrev : ("(ranks)".data).reverse = ')' :: ['s', 'k', 'n', 'a', 'r', '('] := by decide
    rw [hrev, List.cons_append, List.dropWhile_cons]
    simp
  show ((((s ++ " (ranks)").data).dropWhile Char.isWhitespace).reverse.dropWhile
      Char.isWhitespace).reverse = pre ++ "(ranks)".data
  rw [hdata, hp, hdw, List.reverse_reverse]

theorem hasSubstr_pstrip (s : String) :
    hasSubstr "(ranks)" (pstrip (s ++ " (ranks)")) = true := by
  obtain ⟨pre, hp⟩ := pstrip_ranks s
  rw [hasSubstr, hp]
  exact hasSubstrL_pre pre _

/-- Every container produced by rank_transform has "(ranks)" in its
measure label. -/
theorem rank_measure_contains (rdms : RDMs) (method : String) (out : RDMs)
    (h : rank_transform rdms method = .ok out) :
    hasSubstr "(ranks)" out.dissimilarity_measure = true := by
  have hmeas := (rank_transform_ok_inv rdms method out h).2
  by_cases hc : hasSubstr "(ranks)" rdms.dissimilarity_measure = true
  · rw [hmeas, if_pos hc]
    exact hc
  · rw [hmeas, if_neg hc]
    exact hasSubstr_pstrip _

theorem rankdataRow_ordinal (v : List F) : rankdataRow "ordinal" v = ordinalRanks v := by
  simp [rankdataRow]

/-! ## C8 -/

/-- C8: on all-finite rows, every rank produced by rank_transform lies in
[1, n_pairs]; with method "ordinal" each output row is a permutation of
1..n_pairs (so it has no ties); applying rank_transform with method
"ordinal" to its own output leaves the dissimilarities unchanged; and a
second application of rank_transform never changes the measure label
again (so " (ranks)" is never appended twice). -/
theorem C8_rank_spec :
    (∀ (rdms out : RDMs) (method : String),
      rank_transform rdms method = .ok out →
      ∀ i : ℕ, (∀ x ∈ rdms.vectors.getD i [], x.isFin = true) →
        ∀ y ∈ out.vectors.getD i [],
          ∃ q : ℚ, y = .fin q ∧ 1 ≤ q ∧ q ≤ ((rdms.vectors.getD i []).length : ℚ))
    ∧ (∀ rdms out : RDMs, rank_transform rdms "ordinal" = .ok out →
        ∀ i : ℕ, (∀ x ∈ rdms.vectors.getD i [], x.isFin = true) →
          List.Perm (out.vectors.getD i [])
            ((List.range (rdms.vectors.getD i []).length).map
              (fun k : ℕ => F.fin ((k : ℚ) + 1))))
    ∧ (∀ rdms out1 out2 : RDMs, allFin rdms.vectors = true →
        rank_transform rdms "ordinal" = .ok out1 →
        rank_transform out1 "ordinal" = .ok out2 → out2.vectors = out1.vectors)
    ∧ (∀ (rdms out1 out2 : RDMs) (m1 m2 : String),
        rank_transform rdms m1 = .ok out1 → rank_transform out1 m2 = .ok out2 →
        out2.dissimilarity_measure = out1.dissimilarity_measure) := by
  refine ⟨?_, ?_, ?_, ?_⟩
  · intro rdms out method h i hfin y hy
    rcases (rank_transform_ok_inv rdms method out h).1 with hv | ⟨hv1, hv2⟩
    · by_cases hi : i < rdms.vectors.length
      · rw [hv, getD_map_lt _ _ _ [] _ hi] at hy
        exact rankdataRow_bounds method _ hfin y hy
      · push_neg at hi
        rw [hv, getD_default_of_le _ _ _ (by simpa using hi)] at hy
        cases hy
    · rw [hv2] at hy
      simp at hy
  · intro rdms out h i hfin
    rcases (rank_transform_ok_inv rdms "ordinal" out h).1 with hv | ⟨hv1, hv2⟩
    · by_cases hi : i < rdms.vectors.length
      · rw [hv, getD_map_lt _ _ _ [] _ hi, rankdataRow_ordinal]
        exact ordinalRanks_perm _ hfin
      · push_neg at hi
        rw [hv, getD_default_of_le _ _ _ (by simpa using hi),
          getD_default_of_le _ _ _ hi]
        simp
    · rw [hv1, hv2]
      simp
  · intro rdms out1 out2 hfin h1 h2
    rw [rank_transform_ok_vectors rdms "ordinal" (by decide)] at h1
    injection h1 with h1
    subst h1
    rw [rank_transform_ok_vectors _ "ordinal" (by decide)] at h2
    injection h2 with h2
    subst h2
    show (rdms.vectors.map (rankdataRow "ordinal")).map (rankdataRow "ordinal") =
      rdms.vectors.map (rankdataRow "ordinal")
    rw [List.map_map]
    apply List.map_congr_left
    intro r hr
    have hfr : ∀ x ∈ r, x.isFin = true := by
      intro x hx
      exact allFin_iff.mp hfin x (List.mem_flatten.mpr ⟨r, hr, hx⟩)
    simp only [Function.comp_apply, rankdataRow_ordinal]
    exact ordinalRanks_idem r hfr
  · intro rdms out1 out2 m1 m2 h1 h2
    rw [(rank_transform_ok_inv out1 m2 out2 h2).2,
      if_pos (rank_measure_contains rdms m1 out1 h1)]

/-- C8 witness: the theorem applied to the spec's rank example
[1, 2, 1, 2, 3, 0]: ordinal ranks [2, 4, 3, 5, 6, 1] are within [1,6], form
a permutation of 1..6, ranking them again returns the same container, and
the label "m (ranks)" is not extended twice. -/
theorem C8_rank_spec_witness :
    rank_transform exC8 "ordinal" = .ok exC8out
    ∧ (∀ y ∈ exC8out.vectors.getD 0 [],
        ∃ q : ℚ, y = .fin q ∧ 1 ≤ q ∧ q ≤ ((exC8.vectors.getD 0 []).length : ℚ))
    ∧ List.Perm (exC8out.vectors.getD 0 [])
        ((List.range (exC8.vectors.getD 0 []).length).map (fun k : ℕ => F.fin ((k : ℚ) + 1)))
    ∧ rank_transform exC8out "ordinal" = .ok exC8out := by
  have h1 : rank_transform exC8 "ordinal" = .ok exC8out := by
    with_unfolding_all decide
  exact ⟨h1, C8_rank_spec.1 exC8 exC8out "ordinal" h1 0 (by decide),
    C8_rank_spec.2.1 exC8 exC8out h1 0 (by decide), by with_unfolding_all decide⟩

/-! ## C9 -/

/-- C9: sqrt_transform clamps negative entries to 0 before the elementwise
square root, so on an all-finite batch every output entry is a nonnegative
finite value (for any square-root map sending nonnegatives to
nonnegatives, as the IEEE np.sqrt does); and the measure label becomes
exactly "euclidean" when the input label is exactly "squared euclidean",
exactly "mahalanobis" when it is exactly "squared mahalanobis", and
otherwise "sqrt of" concatenated with the input label with no separating
space. -/
theorem C9_sqrt_spec (sq : ℚ → ℚ) (hsq : ∀ q : ℚ, 0 ≤ q → 0 ≤ sq q) (rdms : RDMs)
    (hfin : allFin rdms.vectors = true) :
    (∀ y ∈ flatten (sqrt_transform sq rdms).vectors, ∃ q : ℚ, y = .fin q ∧ 0 ≤ q)
    ∧ (rdms.dissimilarity_measure = "squared euclidean" →
        (sqrt_transform sq rdms).dissimilarity_measure = "euclidean")
    ∧ (rdms.dissimilarity_measure = "squared mahalanobis" →
        (sqrt_transform sq rdms).dissimilarity_measure = "mahalanobis")
    ∧ (rdms.dissimilarity_measure ≠ "squared euclidean" →
        rdms.dissimilarity_measure ≠ "squared mahalanobis" →
        (sqrt_transform sq rdms).dissimilarity_measure =
          "sqrt of" ++ rdms.dissimilarity_measure) := by
  have hfin' := allFin_iff.mp hfin
  refine ⟨?_, ?_, ?_, ?_⟩
  · intro y hy
    have hv : (sqrt_transform sq rdms).vectors =
        rdms.vectors.map (List.map (fun x => fsqrt sq (clampNeg x))) := rfl
    rw [hv, flatten_map_map] at hy
    obtain ⟨x, hx, rfl⟩ := List.mem_map.mp hy
    obtain ⟨qx, rfl⟩ := F.isFin_iff.mp (hfin' x hx)
    by_cases h : qx < 0
    · refine ⟨sq 0, ?_, hsq 0 (le_refl 0)⟩
      simp [clampNeg, F.lt, h, fsqrt]
    · push_neg at h
      refine ⟨sq qx, ?_, hsq qx h⟩
      simp [clampNeg, F.lt, not_lt.mpr h, fsqrt, not_lt.mpr h]
  · intro h
    simp [sqrt_transform, h]
  · intro h
    have hne : rdms.dissimilarity_measure ≠ "squared euclidean" := by
      rw [h]; decide
    simp [sqrt_transform, h, hne]
  · intro h1 h2
    simp [sqrt_transform, h1, h2]

/-- C9 witness: the theorem applied to the batch [[-1, 4, 9]] with measure
"squared euclidean" (taking the identity map as the square root map, which
sends nonnegatives to nonnegatives). -/
theorem C9_sqrt_spec_witness :
    (allFin exC9.vectors = true)
    ∧ (∀ y ∈ flatten (sqrt_transform id exC9).vectors, ∃ q : ℚ, y = .fin q ∧ 0 ≤ q)
    ∧ (sqrt_transform id exC9).dissimilarity_measure = "euclidean" :=
  ⟨by decide, (C9_sqrt_spec id (fun q h => h) exC9 (by decide)).1,
   (C9_sqrt_spec id (fun q h => h) exC9 (by decide)).2.1 rfl⟩

/-! ## C4: amended -/

/-- C4 (amended): neither transform raises on a degenerate range.  On an
all-finite nonempty batch with global max equal to global min,
minmax_transform returns a container all of whose entries are NaN (every
rescale divides 0 by 0); and when the two computed quantiles of
geotopological_transform coincide at a finite value g, the call still
returns a container, in which every entry originally equal to g has become
NaN. -/
theorem C4_degenerate_amended :
    (∀ rdms : RDMs, allFin rdms.vectors = true → flatten rdms.vectors ≠ [] →
      batchMax (flatten rdms.vectors) = batchMin (flatten rdms.vectors) →
      ∀ y ∈ flatten (minmax_transform rdms).vectors, y = F.nan)
    ∧ (∀ (rdms : RDMs) (l u g : ℚ), 0 ≤ l → l ≤ 1 → 0 ≤ u → u ≤ 1 →
        quantile l (flatten rdms.vectors) = .fin g →
        quantile u (flatten rdms.vectors) = .fin g →
        ∃ out : RDMs, geotopological_transform rdms l u = .ok out ∧
          ∀ i k : ℕ, (rdms.vectors.getD i []).getD k F.nan = .fin g →
            (out.vectors.getD i []).getD k F.nan = F.nan) := by
  constructor
  · intro rdms hfin hne hdeg y hy
    have hfin' := allFin_iff.mp hfin
    obtain ⟨qmin, hmin, hminb⟩ := batchMin_spec _ hne hfin'
    obtain ⟨qmax, hmax, hmaxb⟩ := batchMax_spec _ hne hfin'
    have hq : qmax = qmin := by
      rw [hmin, hmax] at hdeg
      exact (F.fin.injEq _ _).mp hdeg
    rw [minmax_vectors_eq, flatten_map_map] at hy
    obtain ⟨x, hx, rfl⟩ := List.mem_map.mp hy
    obtain ⟨qx, rfl⟩ := F.isFin_iff.mp (hfin' x hx)
    have h1 : qmin ≤ qx := F.le_fin_iff.mp (hminb _ hx)
    have h2 : qx ≤ qmax := F.le_fin_iff.mp (hmaxb _ hx)
    have hxq : qx = qmin := le_antisymm (hq ▸ h2) h1
    rw [hmin, hmax, hq, hxq]
    simp [F.sub, F.div]
  · intro rdms l u g hl0 hl1 hu0 hu1 hql hqu
    have hguard : ¬(l < 0 ∨ 1 < l ∨ u < 0 ∨ 1 < u) := by
      push_neg
      exact ⟨by linarith, by linarith, by linarith, by linarith⟩
    refine ⟨_, by simp only [geotopological_transform, if_neg hguard]; rfl, ?_⟩
    intro i k hE
    by_cases hi : i < rdms.vectors.length
    · by_cases hk : k < (rdms.vectors.getD i []).length
      · simp only [RDMs.get_vectors, List.map_map]
        rw [getD_map_lt _ _ _ [] _ hi]
        simp only [Function.comp_apply]
        have hk1 : k < ((rdms.vectors.getD i []).map (fun x =>
            if F.lt x (quantile l (flatten rdms.vectors)) then F.fin 0 else x)).length := by
          simpa using hk
        have hk2 : k < (((rdms.vectors.getD i []).map (fun x =>
            if F.lt x (quantile l (flatten rdms.vectors)) then F.fin 0 else x)).map (fun x =>
            if F.le (quantile l (flatten rdms.vectors)) x && F.le x (quantile u (flatten rdms.vectors)) then
              geotopRescale (quantile l (flatten rdms.vectors)) (quantile u (flatten rdms.vectors)) x
            else x)).length := by
          simpa using hk
        rw [getD_map_lt _ _ _ F.nan _ hk2, getD_map_lt _ _ _ F.nan _ hk1,
          getD_map_lt _ _ _ F.nan _ hk, hE]
        simp [hql, hqu, F.lt, F.le, geotopRescale, F.sub, F.div]
      · push_neg at hk
        rw [getD_default_of_le _ _ _ hk] at hE
        exact absurd hE (by simp)
    · push_neg at hi
      rw [getD_default_of_le _ _ _ hi] at hE
      simp at hE

/-- C4 witness: the amended theorem at the constant batch [[2,2,2]] and at
the batch [[0,1,2]] with l = u = 1/2 (both quantiles equal 1). -/
theorem C4_degenerate_amended_witness :
    (allFin exC4.vectors = true ∧ flatten exC4.vectors ≠ [] ∧
      batchMax (flatten exC4.vectors) = batchMin (flatten exC4.vectors) ∧
      ∀ y ∈ flatten (minmax_transform exC4).vectors, y = F.nan)
    ∧ (quantile (1/2) (flatten exC4b.vectors) = .fin 1 ∧
      ∃ out : RDMs, geotopological_transform exC4b (1/2) (1/2) = .ok out ∧
        ∀ i k : ℕ, (exC4b.vectors.getD i []).getD k F.nan = .fin 1 →
          (out.vectors.getD i []).getD k F.nan = F.nan) :=
  ⟨⟨by decide, by decide, by with_unfolding_all decide,
    C4_degenerate_amended.1 exC4 (by decide) (by decide) (by with_unfolding_all decide)⟩,
   ⟨by with_unfolding_all decide,
    C4_degenerate_amended.2 exC4b (1/2) (1/2) 1 (by norm_num) (by norm_num) (by norm_num)
      (by norm_num) (by with_unfolding_all decide) (by with_unfolding_all decide)⟩⟩

/-! ## C5: amended -/

/-- C5 (amended): rank_transform called on a nonempty batch with a method
outside {average, min, max, dense, ordinal} fails with the rank routine's
invalid-parameter error before any ranks are computed; but
geotopological_transform performs no l ≥ u validation: for any quantile
arguments within [0,1] with u ≤ l it completes without error. -/
theorem C5_param_validation_amended :
    (∀ (rdms : RDMs) (method : String), method ∉ rankMethods → rdms.vectors ≠ [] →
      rank_transform rdms method = .error (.valueError "unknown method"))
    ∧ (∀ (rdms : RDMs) (l u : ℚ), 0 ≤ l → l ≤ 1 → 0 ≤ u → u ≤ 1 → u ≤ l →
        ∃ out : RDMs, geotopological_transform rdms l u = .ok out) := by
  constructor
  · intro rdms method hm hne
    cases hv : rdms.vectors with
    | nil => exact absurd hv hne
    | cons r rs =>
        simp [rank_transform, RDMs.get_vectors, hv, mapOk, rankdata, hm]
  · intro rdms l u hl0 hl1 hu0 hu1 _
    have hguard : ¬(l < 0 ∨ 1 < l ∨ u < 0 ∨ 1 < u) := by
      push_neg
      exact ⟨by linarith, by linarith, by linarith, by linarith⟩
    exact ⟨_, by simp only [geotopological_transform, if_neg hguard]; rfl⟩

/-- C5 witness: the amended theorem applied with the unknown method
"median" on a nonempty batch, and with l = 7/10 ≥ u = 3/10. -/
theorem C5_param_validation_amended_witness :
    ("median" ∉ rankMethods ∧ exC5.vectors ≠ [] ∧
      rank_transform exC5 "median" = .error (.valueError "unknown method"))
    ∧ ∃ out : RDMs, geotopological_transform exC5 (7/10) (3/10) = .ok out :=
  ⟨⟨by decide, by decide,
    C5_param_validation_amended.1 exC5 "median" (by decide) (by decide)⟩,
   C5_param_validation_amended.2 exC5 (7/10) (3/10) (by norm_num) (by norm_num)
     (by norm_num) (by norm_num) (by norm_num)⟩

/-! ## C4: counterexample -/

/-- C4: counterexample.  On a constant batch minmax_transform does not
raise any error: it returns a container every entry of which is NaN
(0/0); likewise geotopological_transform with l = u = 1/2 returns a
container containing NaN for the entry equal to the degenerate quantile. -/
theorem C4_counterexample_degenerate_returns_nan :
    minmax_transform exC4 =
      { vectors := [[F.nan, F.nan, F.nan]],
        dissimilarity_measure := "minmax transformed ",
        descriptors := [], rdm_descriptors := [], pattern_descriptors := [] }
    ∧ geotopological_transform exC4b (1/2) (1/2) =
      .ok { vectors := [[F.fin 0, F.nan, F.fin 1]],
            dissimilarity_measure := "geo-topological transformed ",
            descriptors := [], rdm_descriptors := [], pattern_descriptors := [] } := by
  refine ⟨by with_unfolding_all decide, by with_unfolding_all decide⟩

/-! ## C5: counterexample -/

/-- C5: counterexample.  geotopological_transform performs no l ≥ u check:
called with l = 7/10 > u = 3/10 it completes without any error, returning
an ordinary container. -/
theorem C5_counterexample_geotop_no_l_ge_u_check :
    geotopological_transform exC5 (7/10) (3/10) =
      .ok { vectors := [[F.fin 0, F.fin 0, F.fin 1]],
            dissimilarity_measure := "geo-topological transformed five",
            descriptors := [], rdm_descriptors := [], pattern_descriptors := [] } := by
  with_unfolding_all decide

/-- C3: counterexample.  On the batch [[1,2,2],[3,5,5]] the normalized row
0 is [0, 1/4, 1/4] and contains no entry equal to 1, yet geodesic_transform
returns [1/2, 1/4, 1/4] for that row — not the normalized row — because
nx.from_numpy_array creates no edge for the zero entry, so the output
distance for that pair is the shortest path through the third node. -/
theorem C3_counterexample_zero_entry_row :
    geodesic_transform exC3 =
      .ok { vectors := [[F.fin (1/2), F.fin (1/4), F.fin (1/4)],
                        [F.fin (1/2), F.pinf, F.pinf]],
            dissimilarity_measure := "geodesic transformed ",
            descriptors := [], rdm_descriptors := [], pattern_descriptors := [] }
    ∧ (minmax_transform exC3).vectors.getD 0 [] = [F.fin 0, F.fin (1/4), F.fin (1/4)]
    ∧ (∀ x ∈ (minmax_transform exC3).vectors.getD 0 [], F.eqv x (F.fin 1) = false)
    ∧ ([F.fin (1/2), F.fin (1/4), F.fin (1/4)] : List F) ≠ [F.fin 0, F.fin (1/4), F.fin (1/4)] := by
  refine ⟨by with_unfolding_all decide, by with_unfolding_all decide,
    by with_unfolding_all decide, by with_unfolding_all decide⟩

/-! ## Upper-triangle pair bookkeeping for squareform -/

theorem mem_condPairs (n : ℕ) (p : ℕ × ℕ) (hp : p ∈ condPairs n) :
    p.1 < p.2 ∧ p.2 < n := by
  rw [condPairs, List.mem_flatten] at hp
  obtain ⟨l, hl, hpl⟩ := hp
  rw [List.mem_map] at hl
  obtain ⟨i, _, rfl⟩ := hl
  rw [List.mem_map] at hpl
  obtain ⟨j, hj, rfl⟩ := hpl
  rw [List.mem_filter] at hj
  obtain ⟨hjr, hij⟩ := hj
  rw [List.mem_range] at hjr
  simp only [decide_eq_true_eq] at hij
  exact ⟨hij, hjr⟩

theorem pair_mem_condPairs (n a b : ℕ) (hab : a < b) (hb : b < n) :
    (a, b) ∈ condPairs n := by
  rw [condPairs, List.mem_flatten]
  refine ⟨((List.range n).filter (fun j => decide (a < j))).map (fun j => (a, j)), ?_, ?_⟩
  · exact List.mem_map_of_mem _ (List.mem_range.mpr (lt_trans hab hb))
  · exact List.mem_map_of_mem _
      (List.mem_filter.mpr ⟨List.mem_range.mpr hb, by simpa using hab⟩)

theorem condPairs_nodup (n : ℕ) : (condPairs n).Nodup := by
  rw [condPairs, List.nodup_flatten]
  constructor
  · intro l hl
    rw [List.mem_map] at hl
    obtain ⟨i, _, rfl⟩ := hl
    exact List.Nodup.map (fun a b h => ((Prod.mk.injEq _ _ _ _).mp h).2)
      (((List.nodup_range n).filter _))
  · rw [List.pairwise_map]
    apply List.Pairwise.imp ?_ (List.pairwise_lt_range n)
    intro i j hij
    intro p hpi hpj
    rw [List.mem_map] at hpi hpj
    obtain ⟨a, _, rfl⟩ := hpi
    obtain ⟨b, _, hb⟩ := hpj
    have := ((Prod.mk.injEq _ _ _ _).mp hb.symm).1
    omega

theorem countP_range_gt : ∀ n i : ℕ,
    (List.range n).countP (fun j => decide (i < j)) = n - i - 1 := by
  intro n
  induction n with
  | zero => intro i; simp
  | succ n ih =>
      intro i
      rw [List.range_succ, List.countP_append]
      by_cases h : i < n
      · simp [List.countP_cons, h, ih i]
        omega
      · simp [List.countP_cons, h, ih i]
        omega

theorem sum_map_add_one {α : Type} (l : List α) (g : α → ℕ) :
    (l.map (fun a => g a + 1)).sum = (l.map g).sum + l.length := by
  induction l with
  | nil => rfl
  | cons a l ih =>
      simp only [List.map_cons, List.sum_cons, List.length_cons, ih]
      omega

theorem sum_range_pred : ∀ n : ℕ, ((List.range n).map (fun i => n - i - 1)).sum * 2 = n * (n - 1) := by
  intro n
  induction n with
  | zero => rfl
  | succ n ih =>
      rw [List.range_succ, List.map_append, List.sum_append]
      simp only [List.map_cons, List.map_nil, List.sum_cons, List.sum_nil]
      have hz : n + 1 - n - 1 = 0 := by omega
      rw [hz]
      have hcong : (List.range n).map (fun i => n + 1 - i - 1) =
          (List.range n).map (fun i => (n - i - 1) + 1) := by
        apply List.map_congr_left
        intro i hi
        rw [List.mem_range] at hi
        omega
      rw [hcong, sum_map_add_one, List.length_range]
      cases n with
      | zero => rfl
      | succ m =>
          have hih : ((List.range (m + 1)).map (fun i => m + 1 - i - 1)).sum * 2 =
              (m + 1) * m := by
            have h := ih
            simpa using h
          calc (((List.range (m + 1)).map (fun i => m + 1 - i - 1)).sum + (m + 1) + 0) * 2
              = ((List.range (m + 1)).map (fun i => m + 1 - i - 1)).sum * 2 + (m + 1) * 2 := by
                ring
            _ = (m + 1) * m + (m + 1) * 2 := by rw [hih]
            _ = (m + 1 + 1) * (m + 1 + 1 - 1) := by
                have h1 : m + 1 + 1 - 1 = m + 1 := rfl
                rw [h1]
                ring
  -- (the last steps are pure semiring identities on ℕ, no subtraction involved)

theorem condPairs_length (n : ℕ) : (condPairs n).length * 2 = n * (n - 1) := by
  rw [condPairs, List.length_flatten, List.map_map]
  have hcong : (List.range n).map (List.length ∘ fun i =>
      ((List.range n).filter (fun j => decide (i < j))).map (fun j => (i, j))) =
      (List.range n).map (fun i => n - i - 1) := by
    apply List.map_congr_left
    intro i _
    simp only [Function.comp_apply, List.length_map]
    rw [← List.countP_eq_length_filter, countP_range_gt]
  rw [hcong, sum_range_pred]

/-! ## The squareform lookup -/

theorem find_zip_getD {α β : Type} [DecidableEq α] (dpa : α) (db : β) :
    ∀ (ps : List α) (v : List β) (k : ℕ), ps.Nodup → ps.length = v.length →
      k < ps.length →
      (ps.zip v).find? (fun q => decide (q.1 = ps.getD k dpa)) =
        some (ps.getD k dpa, v.getD k db) := by
  intro ps
  induction ps with
  | nil => intro v k _ _ hk; cases hk
  | cons a ps ih =>
      intro v k hnd hlen hk
      cases v with
      | nil => simp at hlen
      | cons b v =>
          cases k with
          | zero => simp [List.find?]
          | succ j =>
              simp only [List.getD_cons_succ]
              have hj : j < ps.length := by simpa using hk
              have hane : ¬(a = ps.getD j dpa) := by
                intro heq
                have hmem := getD_mem_of_lt ps j dpa hj
                rw [← heq] at hmem
                exact (List.nodup_cons.mp hnd).1 hmem
              rw [List.zip_cons_cons, List.find?_cons_of_neg _ (by simpa using hane)]
              exact ih v j (List.nodup_cons.mp hnd).2 (by simpa using hlen) hj

/-- The entry sqmat reads for the k-th condensed pair is the k-th entry of
the condensed vector. -/
theorem sqmat_getD (n : ℕ) (v : List F) (k : ℕ)
    (hlen : (condPairs n).length = v.length) (hk : k < (condPairs n).length) :
    sqmat n v ((condPairs n).getD k (0, 0)).1 ((condPairs n).getD k (0, 0)).2 =
      v.getD k F.nan := by
  have hpmem := getD_mem_of_lt (condPairs n) k (0, 0) hk
  obtain ⟨hab, _⟩ := mem_condPairs _ _ hpmem
  rw [sqmat, if_neg (Nat.ne_of_lt hab)]
  have hkey : (min ((condPairs n).getD k (0, 0)).1 ((condPairs n).getD k (0, 0)).2,
      max ((condPairs n).getD k (0, 0)).1 ((condPairs n).getD k (0, 0)).2) =
      (condPairs n).getD k (0, 0) := by
    rw [min_eq_left (le_of_lt hab), max_eq_right (le_of_lt hab)]
  rw [hkey, find_zip_getD (0, 0) F.nan (condPairs n) v k (condPairs_nodup n) hlen hk]
  rfl

/-- For any off-diagonal position of the reconstructed square matrix, the
value read is an entry of the condensed vector. -/
theorem sqmat_mem (n : ℕ) (v : List F) (a b : ℕ) (hab : a ≠ b) (han : a < n) (hbn : b < n)
    (hlen : (condPairs n).length = v.length) :
    sqmat n v a b ∈ v := by
  have h1 : min a b < max a b := by omega
  have h2 : max a b < n := by omega
  have hmem := pair_mem_condPairs n (min a b) (max a b) h1 h2
  obtain ⟨k, hk, hpk⟩ := List.getElem_of_mem hmem
  have hgd : (condPairs n).getD k (0, 0) = (min a b, max a b) := by
    rw [List.getD_eq_getElem _ _ hk, hpk]
  have hfind := find_zip_getD (0, 0) F.nan (condPairs n) v k (condPairs_nodup n) hlen hk
  rw [hgd] at hfind
  rw [sqmat, if_neg hab, hfind]
  exact getD_mem_of_lt v k F.nan (by omega)

/-- The condensed vector is recovered by reading the square matrix at every
upper-triangle pair in order (squareform is a left inverse of its own
inverse). -/
theorem condPairs_map_sqmat (n : ℕ) (v : List F) (hlen : (condPairs n).length = v.length) :
    (condPairs n).map (fun p => sqmat n v p.1 p.2) = v := by
  apply List.ext_getElem (by simp [hlen])
  intro k h1 h2
  rw [List.getElem_map]
  have hk : k < (condPairs n).length := by simpa using h1
  have hgd : (condPairs n)[k] = (condPairs n).getD k (0, 0) :=
    (List.getD_eq_getElem _ _ hk).symm
  rw [hgd, sqmat_getD n v k hlen hk, List.getD_eq_getElem _ _ h2]

/-! ## Floyd-Warshall lemmas -/

theorem F.add_shape {a b : F} (ha : a = F.pinf ∨ ∃ q, a = F.fin q)
    (hb : b = F.pinf ∨ ∃ q, b = F.fin q) :
    (F.add a b = F.pinf ∨ ∃ q, F.add a b = F.fin q) ∧
    (F.add a b ≠ F.pinf → a ≠ F.pinf ∧ b ≠ F.pinf) := by
  rcases ha with rfl | ⟨qa, rfl⟩ <;> rcases hb with rfl | ⟨qb, rfl⟩ <;>
    simp [F.add]

theorem F.min2_cases {a b : F} (ha : a ≠ F.nan) (hb : b ≠ F.nan) :
    F.min2 a b = a ∨ F.min2 a b = b := by
  have hna : a.isNan = false := by cases a <;> simp_all [F.isNan]
  have hnb : b.isNan = false := by cases b <;> simp_all [F.isNan]
  rw [F.min2, hna, hnb]
  by_cases h : F.lt b a <;> simp [h]

theorem F.shape_ne_nan {a : F} (ha : a = F.pinf ∨ ∃ q, a = F.fin q) : a ≠ F.nan := by
  rcases ha with rfl | ⟨q, rfl⟩ <;> simp

theorem F.posinf_add {a b : F} (ha : a = F.pinf ∨ ∃ q, a = F.fin q ∧ 0 < q)
    (hb : b = F.pinf ∨ ∃ q, b = F.fin q ∧ 0 < q) :
    F.add a b = F.pinf ∨ ∃ q, F.add a b = F.fin q ∧ 0 < q := by
  rcases ha with rfl | ⟨qa, rfl, hqa⟩ <;> rcases hb with rfl | ⟨qb, rfl, hqb⟩ <;>
    simp [F.add]
  linarith

theorem F.posinf_min2 {a b : F} (ha : a = F.pinf ∨ ∃ q, a = F.fin q ∧ 0 < q)
    (hb : b = F.pinf ∨ ∃ q, b = F.fin q ∧ 0 < q) :
    F.min2 a b = F.pinf ∨ ∃ q, F.min2 a b = F.fin q ∧ 0 < q := by
  have hna : a ≠ F.nan := by rcases ha with rfl | ⟨q, rfl, _⟩ <;> simp
  have hnb : b ≠ F.nan := by rcases hb with rfl | ⟨q, rfl, _⟩ <;> simp
  rcases F.min2_cases hna hnb with h | h <;> rw [h]
  · exact ha
  · exact hb

theorem F.min2_zero_left {s : F} (hs : s = F.pinf ∨ ∃ q, s = F.fin q ∧ 0 ≤ q) :
    F.min2 (F.fin 0) s = F.fin 0 := by
  rcases hs with rfl | ⟨q, rfl, hq⟩
  · simp [F.min2, F.isNan, F.lt]
  · simp [F.min2, F.isNan, F.lt, not_lt.mpr hq]

theorem fw_agree (n : ℕ) :
    ∀ (ks : List ℕ), (∀ k ∈ ks, k < n) → ∀ d e : ℕ → ℕ → F,
      (∀ i, i < n → ∀ j, j < n → d i j = e i j) →
      ∀ i, i < n → ∀ j, j < n →
        (ks.foldl (fun d k => fun i j => F.min2 (d i j) (F.add (d i k) (d k j))) d) i j =
        (ks.foldl (fun d k => fun i j => F.min2 (d i j) (F.add (d i k) (d k j))) e) i j := by
  intro ks
  induction ks with
  | nil => intro _ d e hde i hi j hj; exact hde i hi j hj
  | cons k ks ih =>
      intro hks d e hde
      apply ih (fun x hx => hks x (List.mem_cons_of_mem k hx))
      intro i hi j hj
      have hk : k < n := hks k (List.mem_cons_self k ks)
      show F.min2 (d i j) (F.add (d i k) (d k j)) = F.min2 (e i j) (F.add (e i k) (e k j))
      rw [hde i hi j hj, hde i hi k hk, hde k hk j hj]

/-- When the initial distance matrix already satisfies the triangle
inequality on the first n nodes, every Floyd-Warshall relaxation is a
no-op. -/
theorem foldl_step_stable (n : ℕ) :
    ∀ (ks : List ℕ), (∀ k ∈ ks, k < n) → ∀ d : ℕ → ℕ → F,
      (∀ i, i < n → ∀ j, j < n → ∀ k, k < n →
        F.le (d i j) (F.add (d i k) (d k j)) = true) →
      ∀ i, i < n → ∀ j, j < n →
        (ks.foldl (fun d k => fun i j => F.min2 (d i j) (F.add (d i k) (d k j))) d) i j = d i j := by
  intro ks
  induction ks with
  | nil => intro _ d _ i _ j _; rfl
  | cons k ks ih =>
      intro hks d htri i hi j hj
      have hk : k < n := hks k (List.mem_cons_self k ks)
      have hstep : ∀ a, a < n → ∀ b, b < n →
          (fun i j => F.min2 (d i j) (F.add (d i k) (d k j))) a b = d a b := by
        intro a ha b hb
        exact F.min2_left (htri a ha b hb k hk)
      calc (List.foldl (fun d k => fun i j => F.min2 (d i j) (F.add (d i k) (d k j)))
            (fun i j => F.min2 (d i j) (F.add (d i k) (d k j))) ks) i j
          = (List.foldl (fun d k => fun i j => F.min2 (d i j) (F.add (d i k) (d k j))) d ks) i j :=
            fw_agree n ks (fun x hx => hks x (List.mem_cons_of_mem k hx)) _ d hstep i hi j hj
        _ = d i j := ih (fun x hx => hks x (List.mem_cons_of_mem k hx)) d htri i hi j hj

theorem fw_stable (n : ℕ) (d : ℕ → ℕ → F)
    (htri : ∀ i, i < n → ∀ j, j < n → ∀ k, k < n →
      F.le (d i j) (F.add (d i k) (d k j)) = true) :
    ∀ i, i < n → ∀ j, j < n → fw n d i j = d i j :=
  foldl_step_stable n (List.range n) (fun k hk => List.mem_range.mp hk) d htri

/-- Invariant of the Floyd-Warshall relaxation: every entry is +inf or
finite, and a finite (non-inf) entry witnesses reachability. -/
theorem foldl_step_reach (n : ℕ) (E : ℕ → ℕ → Prop) :
    ∀ (ks : List ℕ), (∀ k ∈ ks, k < n) → ∀ d : ℕ → ℕ → F,
      (∀ i, i < n → ∀ j, j < n →
        (d i j = F.pinf ∨ ∃ q, d i j = F.fin q) ∧
        (d i j ≠ F.pinf → Relation.ReflTransGen E i j)) →
      ∀ i, i < n → ∀ j, j < n →
        ((ks.foldl (fun d k => fun i j => F.min2 (d i j) (F.add (d i k) (d k j))) d) i j = F.pinf ∨
          ∃ q, (ks.foldl (fun d k => fun i j => F.min2 (d i j) (F.add (d i k) (d k j))) d) i j = F.fin q) ∧
        ((ks.foldl (fun d k => fun i j => F.min2 (d i j) (F.add (d i k) (d k j))) d) i j ≠ F.pinf →
          Relation.ReflTransGen E i j) := by
  intro ks
  induction ks with
  | nil => intro _ d hinv; exact hinv
  | cons k ks ih =>
      intro hks d hinv
      have hk : k < n := hks k (List.mem_cons_self k ks)
      apply ih (fun x hx => hks x (List.mem_cons_of_mem k hx))
      intro i hi j hj
      obtain ⟨hsij, hrij⟩ := hinv i hi j hj
      obtain ⟨hsik, hrik⟩ := hinv i hi k hk
      obtain ⟨hskj, hrkj⟩ := hinv k hk j hj
      have hadd := F.add_shape hsik hskj
      have hmc := F.min2_cases (F.shape_ne_nan hsij) (F.shape_ne_nan hadd.1)
      show ((F.min2 (d i j) (F.add (d i k) (d k j)) = F.pinf ∨
          ∃ q, F.min2 (d i j) (F.add (d i k) (d k j)) = F.fin q) ∧
        (F.min2 (d i j) (F.add (d i k) (d k j)) ≠ F.pinf → Relation.ReflTransGen E i j))
      constructor
      · rcases hmc with h | h <;> rw [h]
        · exact hsij
        · exact hadd.1
      · intro hne
        rcases hmc with h | h <;> rw [h] at hne
        · exact hrij hne
        · obtain ⟨hik, hkj⟩ := hadd.2 hne
          exact (hrik hik).trans (hrkj hkj)

/-- Invariant of the relaxation on a graph with positive edge weights:
the diagonal stays 0 and off-diagonal entries stay positive or +inf. -/
theorem foldl_step_pos (n : ℕ) :
    ∀ (ks : List ℕ), (∀ k ∈ ks, k < n) → ∀ d : ℕ → ℕ → F,
      (∀ i, i < n → d i i = F.fin 0) →
      (∀ i, i < n → ∀ j, j < n → i ≠ j →
        d i j = F.pinf ∨ ∃ q, d i j = F.fin q ∧ 0 < q) →
      (∀ i, i < n →
        (ks.foldl (fun d k => fun i j => F.min2 (d i j) (F.add (d i k) (d k j))) d) i i = F.fin 0) ∧
      (∀ i, i < n → ∀ j, j < n → i ≠ j →
        (ks.foldl (fun d k => fun i j => F.min2 (d i j) (F.add (d i k) (d k j))) d) i j = F.pinf ∨
        ∃ q, (ks.foldl (fun d k => fun i j => F.min2 (d i j) (F.add (d i k) (d k j))) d) i j = F.fin q ∧ 0 < q) := by
  intro ks
  induction ks with
  | nil => intro _ d hdiag hoff; exact ⟨hdiag, hoff⟩
  | cons k ks ih =>
      intro hks d hdiag hoff
      have hk : k < n := hks k (List.mem_cons_self k ks)
      have hweak : ∀ a, a < n → ∀ b, b < n →
          d a b = F.pinf ∨ ∃ q, d a b = F.fin q ∧ 0 ≤ q := by
        intro a ha b hb
        by_cases hab : a = b
        · subst hab
          exact Or.inr ⟨0, hdiag a ha, le_refl 0⟩
        · rcases hoff a ha b hb hab with h | ⟨q, hq, hq0⟩
          · exact Or.inl h
          · exact Or.inr ⟨q, hq, le_of_lt hq0⟩
      apply ih (fun x hx => hks x (List.mem_cons_of_mem k hx))
      · intro i hi
        show F.min2 (d i i) (F.add (d i k) (d k i)) = F.fin 0
        rw [hdiag i hi]
        apply F.min2_zero_left
        by_cases hik : i = k
        · subst hik
          rw [hdiag i hi]
          exact Or.inr ⟨0, by simp [F.add], le_refl 0⟩
        · rcases hoff i hi k hk hik with h | ⟨q1, hq1, hq10⟩ <;>
            rcases hoff k hk i hi (fun hc => hik hc.symm) with h2 | ⟨q2, hq2, hq20⟩
          · rw [h, h2]; exact Or.inl rfl
          · rw [h, hq2]; exact Or.inl rfl
          · rw [hq1, h2]; exact Or.inl rfl
          · rw [hq1, hq2]
            exact Or.inr ⟨q1 + q2, rfl, by linarith⟩
      · intro i hi j hj hij
        show F.min2 (d i j) (F.add (d i k) (d k j)) = F.pinf ∨
          ∃ q, F.min2 (d i j) (F.add (d i k) (d k j)) = F.fin q ∧ 0 < q
        apply F.posinf_min2 (hoff i hi j hj hij)
        by_cases hik : i = k
        · subst hik
          rw [hdiag i hi]
          rcases hoff i hi j hj hij with h | ⟨q, hq, hq0⟩
          · rw [h]; exact Or.inl rfl
          · rw [hq]
            exact Or.inr ⟨q, by simp [F.add], hq0⟩
        · by_cases hkj : k = j
          · subst hkj
            rw [hdiag k hk]
            rcases hoff i hi k hk hik with h | ⟨q, hq, hq0⟩
            · rw [h]; exact Or.inl rfl
            · rw [hq]
              exact Or.inr ⟨q, by simp [F.add], hq0⟩
          · exact F.posinf_add (hoff i hi k hk hik) (hoff k hk j hj hkj)

/-! ## geodesic_transform plumbing -/

theorem geodesic_row_ok (v out : List F) (h : geodesic_row v = .ok out) :
    sqDim v.length * (sqDim v.length - 1) = 2 * v.length ∧
    out = (condPairs (sqDim v.length)).map
      (fun p => fw (sqDim v.length) (initD (sqDim v.length) v) p.1 p.2) := by
  simp only [geodesic_row] at h
  by_cases hc : sqDim v.length * (sqDim v.length - 1) = 2 * v.length
  · rw [if_pos hc] at h
    injection h with h
    exact ⟨hc, h.symm⟩
  · rw [if_neg hc] at h
    cases h

theorem geodesic_ok_rows (rdms out : RDMs) (h : geodesic_transform rdms = .ok out) :
    out.vectors.length = (minmax_transform rdms).vectors.length ∧
    ∀ i, i < (minmax_transform rdms).vectors.length →
      geodesic_row ((minmax_transform rdms).vectors.getD i []) = .ok (out.vectors.getD i []) := by
  simp only [geodesic_transform, RDMs.get_vectors] at h
  cases hmo : mapOk geodesic_row (minmax_transform rdms).vectors with
  | error e =>
      rw [hmo] at h
      cases h
  | ok d =>
      rw [hmo] at h
      injection h with h
      subst h
      obtain ⟨hlen, hget⟩ := mapOk_ok_getD geodesic_row [] [] _ _ hmo
      exact ⟨hlen, fun i hi => hget i hi⟩

/-! ## C3: amended -/

/-- C3 (amended): geodesic_transform first min-max normalizes the whole
batch once; a normalized row passes through unchanged when it contains no
entry equal to 1, *and additionally* no entry equal to 0 (a zero entry gets
no graph edge at all) *and* its reconstructed matrix already satisfies the
triangle inequality (otherwise a multi-hop path undercuts the direct
edge); and whenever the pruned graph of a row leaves the two nodes of a
condensed pair disconnected, the output entry for that pair is +inf,
preserved in the returned container rather than treated as an error. -/
theorem C3_geodesic_amended (rdms out : RDMs) (h : geodesic_transform rdms = .ok out) :
    (∀ (i : ℕ) (nv : List F) (n : ℕ),
      nv = (minmax_transform rdms).vectors.getD i [] →
      n = sqDim nv.length →
      (∀ x ∈ nv, x.isFin = true) →
      (∀ x ∈ nv, F.eqv x (F.fin 0) = false ∧ F.eqv x (F.fin 1) = false) →
      (∀ a ∈ List.range n, ∀ b ∈ List.range n, ∀ c ∈ List.range n,
        F.le (initD n nv a b) (F.add (initD n nv a c) (initD n nv c b)) = true) →
      out.vectors.getD i [] = nv)
    ∧ (∀ (i k : ℕ) (nv : List F) (n : ℕ),
        nv = (minmax_transform rdms).vectors.getD i [] →
        n = sqDim nv.length →
        (∀ x ∈ nv, x.isFin = true) →
        k < nv.length →
        ¬ Relation.ReflTransGen
            (fun a b => a < n ∧ b < n ∧ prunedEdgeB n nv a b = true)
            ((condPairs n).getD k (0, 0)).1 ((condPairs n).getD k (0, 0)).2 →
        (out.vectors.getD i []).getD k F.nan = F.pinf) := by
  obtain ⟨hlen, hrows⟩ := geodesic_ok_rows rdms out h
  constructor
  · intro i nv n hnv hn hfin h01 htri
    by_cases hi : i < (minmax_transform rdms).vectors.length
    · have hrow := hrows i hi
      rw [← hnv] at hrow
      obtain ⟨hshape, hout⟩ := geodesic_row_ok _ _ hrow
      rw [← hn] at hshape hout
      have hlenCP : (condPairs n).length = nv.length := by
        have h2 := condPairs_length n
        omega
      have htri' : ∀ a, a < n → ∀ b, b < n → ∀ c, c < n →
          F.le (initD n nv a b) (F.add (initD n nv a c) (initD n nv c b)) = true := by
        intro a ha b hb c hc
        exact htri a (List.mem_range.mpr ha) b (List.mem_range.mpr hb) c (List.mem_range.mpr hc)
      have hmap : ∀ p ∈ condPairs n, fw n (initD n nv) p.1 p.2 = sqmat n nv p.1 p.2 := by
        intro p hp
        obtain ⟨h12, h2n⟩ := mem_condPairs _ _ hp
        have hne : p.1 ≠ p.2 := Nat.ne_of_lt h12
        rw [fw_stable n (initD n nv) htri' p.1 (lt_trans h12 h2n) p.2 h2n]
        have hmem : sqmat n nv p.1 p.2 ∈ nv :=
          sqmat_mem n nv p.1 p.2 hne (lt_trans h12 h2n) h2n hlenCP
        obtain ⟨h0, h1⟩ := h01 _ hmem
        have hEdge : prunedEdgeB n nv p.1 p.2 = true := by
          simp [prunedEdgeB, hne, h0, h1]
        simp only [initD, if_neg hne, hEdge, if_pos]
      rw [hout, List.map_congr_left hmap]
      exact condPairs_map_sqmat n nv hlenCP
    · push_neg at hi
      have hnv2 : nv = [] := by
        rw [hnv]
        exact getD_default_of_le _ _ _ hi
      rw [getD_default_of_le out.vectors i [] (by rw [hlen]; exact hi), hnv2]
  · intro i k nv n hnv hn hfin hk hreach
    have hi : i < (minmax_transform rdms).vectors.length := by
      by_contra hi
      push_neg at hi
      rw [hnv, getD_default_of_le _ _ _ hi] at hk
      simp at hk
    have hrow := hrows i hi
    rw [← hnv] at hrow
    obtain ⟨hshape, hout⟩ := geodesic_row_ok _ _ hrow
    rw [← hn] at hshape hout
    have hlenCP : (condPairs n).length = nv.length := by
      have h2 := condPairs_length n
      omega
    have hkCP : k < (condPairs n).length := by
      rw [hlenCP]
      exact hk
    have hp := getD_mem_of_lt (condPairs n) k (0, 0) hkCP
    obtain ⟨h12, h2n⟩ := mem_condPairs _ _ hp
    have hinv : ∀ a, a < n → ∀ b, b < n →
        (initD n nv a b = F.pinf ∨ ∃ q, initD n nv a b = F.fin q) ∧
        (initD n nv a b ≠ F.pinf → Relation.ReflTransGen
          (fun a b => a < n ∧ b < n ∧ prunedEdgeB n nv a b = true) a b) := by
      intro a ha b hb
      by_cases hab : a = b
      · subst hab
        constructor
        · exact Or.inr ⟨0, by simp [initD]⟩
        · intro _
          exact Relation.ReflTransGen.refl
      · by_cases hedge : prunedEdgeB n nv a b = true
        · constructor
          · have hmem : sqmat n nv a b ∈ nv := sqmat_mem n nv a b hab ha hb hlenCP
            obtain ⟨q, hq⟩ := F.isFin_iff.mp (hfin _ hmem)
            refine Or.inr ⟨q, ?_⟩
            simp only [initD, if_neg hab, hedge, if_pos]
            exact hq
          · intro _
            exact Relation.ReflTransGen.single ⟨ha, hb, hedge⟩
        · have hpinf : initD n nv a b = F.pinf := by
            simp only [initD, if_neg hab]
            rw [if_neg]
            simpa using hedge
          constructor
          · exact Or.inl hpinf
          · intro hne
            exact absurd hpinf hne
    have hres := foldl_step_reach n
      (fun a b => a < n ∧ b < n ∧ prunedEdgeB n nv a b = true)
      (List.range n) (fun x hx => List.mem_range.mp hx) (initD n nv) hinv
      ((condPairs n).getD k (0, 0)).1 (lt_trans h12 h2n)
      ((condPairs n).getD k (0, 0)).2 h2n
    rw [hout, getD_map_lt _ _ k (0, 0) F.nan hkCP]
    by_contra hcontra
    exact hreach (hres.2 hcontra)

/-- C3 witness: on the batch [[2,3,4],[1,5,9]] (normalized
[[1/8,1/4,3/8],[0,1/2,1]]), row 0 satisfies all the amended conditions and
passes through unchanged, while in row 1 the pair (0,1) is disconnected
after pruning and its output entry is +inf. -/
theorem C3_geodesic_amended_witness :
    geodesic_transform exW3 = .ok exW3out
    ∧ exW3out.vectors.getD 0 [] = (minmax_transform exW3).vectors.getD 0 []
    ∧ (exW3out.vectors.getD 1 []).getD 0 F.nan = F.pinf := by
  have h : geodesic_transform exW3 = .ok exW3out := by
    with_unfolding_all decide
  have hnr : ¬ Relation.ReflTransGen
      (fun a b => a < 3 ∧ b < 3 ∧
        prunedEdgeB 3 ((minmax_transform exW3).vectors.getD 1 []) a b = true)
      ((condPairs 3).getD 0 (0, 0)).1 ((condPairs 3).getD 0 (0, 0)).2 := by
    have hpair : ((condPairs 3).getD 0 (0, 0)) = (0, 1) := by decide
    rw [hpair]
    intro hr
    rcases Relation.ReflTransGen.cases_tail hr with heq | ⟨c, _, he⟩
    · exact absurd heq (by decide)
    · obtain ⟨hc3, _, hedge⟩ := he
      interval_cases c
      · revert hedge
        with_unfolding_all decide
      · revert hedge
        with_unfolding_all decide
      · revert hedge
        with_unfolding_all decide
  refine ⟨h, ?_, ?_⟩
  · exact (C3_geodesic_amended exW3 exW3out h).1 0 _ 3 rfl
      (by with_unfolding_all decide) (by with_unfolding_all decide)
      (by with_unfolding_all decide) (by with_unfolding_all decide)
  · exact (C3_geodesic_amended exW3 exW3out h).2 1 0 _ 3 rfl
      (by with_unfolding_all decide) (by with_unfolding_all decide)
      (by with_unfolding_all decide) hnr

/-! ## C10 -/

/-- C10: in geodesic_transform, a condensed pair whose input dissimilarity
equals the batch-wide global minimum normalizes to exactly 0, so
nx.from_numpy_array gives it no direct edge, and its output distance is
the shortest path through other nodes: +inf or strictly positive, never
0. -/
theorem C10_geodesic_no_zero_edge (rdms out : RDMs)
    (h : geodesic_transform rdms = .ok out)
    (hfin : allFin rdms.vectors = true)
    (hlt : F.lt (batchMin (flatten rdms.vectors)) (batchMax (flatten rdms.vectors)) = true) :
    ∀ (i k : ℕ) (nv : List F) (n : ℕ),
      nv = (minmax_transform rdms).vectors.getD i [] →
      n = sqDim nv.length →
      k < nv.length →
      (rdms.vectors.getD i []).getD k F.nan = batchMin (flatten rdms.vectors) →
      prunedEdgeB n nv ((condPairs n).getD k (0, 0)).1 ((condPairs n).getD k (0, 0)).2 = false
      ∧ ((out.vectors.getD i []).getD k F.nan = F.pinf ∨
        ∃ q : ℚ, (out.vectors.getD i []).getD k F.nan = F.fin q ∧ 0 < q) := by
  intro i k nv n hnv hn hk hEmin
  obtain ⟨qmin, qmax, hmin, hmax, hqlt, hval⟩ := minmax_rescale_spec rdms hfin hlt
  obtain ⟨hlen, hrows⟩ := geodesic_ok_rows rdms out h
  have hi : i < (minmax_transform rdms).vectors.length := by
    by_contra hi
    push_neg at hi
    rw [hnv, getD_default_of_le _ _ _ hi] at hk
    simp at hk
  have hi' : i < rdms.vectors.length := by
    rw [minmax_vectors_eq] at hi
    simpa using hi
  have hrow_eq : nv = ((rdms.vectors.getD i []).map (fun x =>
      F.div (F.sub x (batchMin (flatten rdms.vectors)))
        (F.sub (batchMax (flatten rdms.vectors)) (batchMin (flatten rdms.vectors))))) := by
    rw [hnv, minmax_vectors_eq, getD_map_lt _ _ _ [] _ hi']
  have hrowlen : nv.length = (rdms.vectors.getD i []).length := by
    rw [hrow_eq]
    simp
  have hk' : k < (rdms.vectors.getD i []).length := by
    rw [← hrowlen]
    exact hk
  have hden : qmax - qmin ≠ 0 := by
    intro hc
    have : qmax = qmin := by linarith
    linarith
  have hnvk : nv.getD k F.nan = F.fin 0 := by
    rw [hrow_eq, getD_map_lt _ _ _ F.nan _ hk', hEmin]
    rw [hmin, hmax, F.sub_fin, F.sub_fin, F.div_fin hden]
    simp
  have hbounds : ∀ x ∈ nv, ∃ q, x = F.fin q ∧ 0 ≤ q := by
    intro x hx
    have hxf : x ∈ flatten (minmax_transform rdms).vectors := by
      rw [hnv] at hx
      exact List.mem_flatten.mpr ⟨_, getD_mem_of_lt _ _ _ hi, hx⟩
    rw [minmax_vectors_eq, flatten_map_map] at hxf
    obtain ⟨y, hy, rfl⟩ := List.mem_map.mp hxf
    obtain ⟨qy, hqy, heq, h0, _, _, _⟩ := hval y hy
    refine ⟨(qy - qmin) / (qmax - qmin), ?_, h0⟩
    rw [hmin, hmax, hqy]
    rw [hqy] at heq
    exact heq
  have hrow := hrows i hi
  rw [← hnv] at hrow
  obtain ⟨hshape, hout⟩ := geodesic_row_ok _ _ hrow
  rw [← hn] at hshape hout
  have hlenCP : (condPairs n).length = nv.length := by
    have h2 := condPairs_length n
    omega
  have hkCP : k < (condPairs n).length := by
    rw [hlenCP]
    exact hk
  have hsq : sqmat n nv ((condPairs n).getD k (0, 0)).1 ((condPairs n).getD k (0, 0)).2 =
      nv.getD k F.nan := sqmat_getD n nv k hlenCP hkCP
  have hdiag : ∀ a, a < n → initD n nv a a = F.fin 0 := by
    intro a _
    simp [initD]
  have hoff : ∀ a, a < n → ∀ b, b < n → a ≠ b →
      initD n nv a b = F.pinf ∨ ∃ q, initD n nv a b = F.fin q ∧ 0 < q := by
    intro a ha b hb hab
    by_cases hedge : prunedEdgeB n nv a b = true
    · have hmem : sqmat n nv a b ∈ nv := sqmat_mem n nv a b hab ha hb hlenCP
      obtain ⟨q, hq, hq0⟩ := hbounds _ hmem
      have hqne : q ≠ 0 := by
        intro hq00
        have hcopy := hedge
        simp only [prunedEdgeB, Bool.and_eq_true, Bool.not_eq_true'] at hcopy
        obtain ⟨⟨_, h0⟩, _⟩ := hcopy
        rw [hq, hq00] at h0
        simp [F.eqv] at h0
      refine Or.inr ⟨q, ?_, lt_of_le_of_ne hq0 (Ne.symm hqne)⟩
      simp only [initD, if_neg hab, hedge, if_pos]
      exact hq
    · refine Or.inl ?_
      simp only [initD, if_neg hab]
      rw [if_neg]
      simpa using hedge
  constructor
  · simp only [prunedEdgeB]
    rw [hsq, hnvk]
    simp [F.eqv]
  · have hres := foldl_step_pos n (List.range n) (fun x hx => List.mem_range.mp hx)
      (initD n nv) hdiag hoff
    have hp := getD_mem_of_lt (condPairs n) k (0, 0) hkCP
    obtain ⟨h12, h2n⟩ := mem_condPairs _ _ hp
    rw [hout, getD_map_lt _ _ k (0, 0) F.nan hkCP]
    exact hres.2 _ (lt_trans h12 h2n) _ h2n (Nat.ne_of_lt h12)

/-- C10 witness: on the single-row batch [[1,2,3]] (normalized
[0, 1/2, 1]), the pair (0,1) holds the global minimum: it gets no edge,
and since the alternative route is severed by the weight-1 prune its
output distance is +inf. -/
theorem C10_geodesic_no_zero_edge_witness :
    geodesic_transform exC10 = .ok exC10out
    ∧ prunedEdgeB 3 ((minmax_transform exC10).vectors.getD 0 [])
        ((condPairs 3).getD 0 (0, 0)).1 ((condPairs 3).getD 0 (0, 0)).2 = false
    ∧ ((exC10out.vectors.getD 0 []).getD 0 F.nan = F.pinf ∨
      ∃ q : ℚ, (exC10out.vectors.getD 0 []).getD 0 F.nan = F.fin q ∧ 0 < q) := by
  have h : geodesic_transform exC10 = .ok exC10out := by
    with_unfolding_all decide
  have hres := C10_geodesic_no_zero_edge exC10 exC10out h (by decide)
    (by with_unfolding_all decide) 0 0 _ 3 rfl (by with_unfolding_all decide)
    (by with_unfolding_all decide) (by with_unfolding_all decide)
  exact ⟨h, hres.1, hres.2⟩

end RSA